import Mathlib

set_option maxRecDepth 10000

/-!
# Verification of the Astrian Oracular System core

A shallow embedding of the ELS (equidistant-letter-sequence) search engine
and the Hebrew letter-relationship graph of the repository, together with
theorems settling the specification claims about them.

Source functions embedded (TypeScript → Lean):
* `cleanText`, the index map and `performElsSearchWithSkipAndDirection`
  (hooks.ts / unnamed part_003; part_003 carries the well-formed version,
  the hooks.ts copy references undeclared variables),
* `HebrewAlphabetNetwork` : `calculatePathGematria`, `dfs`,
  `breadthFirstSearch`, `identifyAndCalculateIslands`, `getIslandLetters`,
  `calculateIslandGematria`, and the concrete letter data (src/dataModels.ts),
* `calculateStandardGematria` (src/utils/gematriaUtils.ts),
* `checkForMeaningfulPhrases` and `identifySignificantElsFindings`
  (unnamed part_003).

Texts are modelled as `List Char`; JavaScript string indices become list
indices (all the alphabet characters in play are in the Basic Multilingual
Plane, one UTF-16 unit each).  The two recursive traversals, which the
source runs on natural recursion bounded by the visited set, are embedded
with an explicit fuel parameter; fuel-insensitivity theorems below show the
recursion stabilises once the fuel reaches the number of unvisited nodes,
which is exactly the source's termination argument.
-/

/-- The character test of `cleanText` (hooks.ts line 45): the regex
`[^א-ת]` keeps exactly the Unicode range U+05D0..U+05EA (the 22 Hebrew
letters and the 5 final forms).  `toLowerCase` is the identity on this
range. -/
def isHebrewLetter (c : Char) : Bool :=
  0x5D0 ≤ c.toNat && c.toNat ≤ 0x5EA

/-- `cleanText` (hooks.ts lines 45-49): strip every character outside the
Hebrew letter range. -/
def cleanText (s : List Char) : List Char :=
  s.filter isHebrewLetter

/-- `extractHebrewLetters` (hooks.ts lines 440-443): keep only characters
from the explicit 27-letter list. -/
def hebrewLettersList : List Char :=
  ['א', 'ב', 'ג', 'ד', 'ה', 'ו', 'ז', 'ח', 'ט', 'י', 'כ', 'ל', 'מ', 'נ',
   'ס', 'ע', 'פ', 'צ', 'ק', 'ר', 'ש', 'ת', 'ך', 'ם', 'ן', 'ף', 'ץ']

/-- `extractHebrewLetters` (hooks.ts lines 440-443). -/
def extractHebrewLetters (s : List Char) : List Char :=
  s.filter (fun c => hebrewLettersList.contains c)

/-- The cleaned-index → original-index map built inside
`performElsSearchWithSkipAndDirection` (part_003: walk the original text;
every position whose character survives `cleanText` is recorded, in
order).  Entry `i` of the list is the original position of the `i`-th
kept character. -/
def cleanedToOriginalMap (text : List Char) : List Nat :=
  (List.range text.length).filter (fun i => isHebrewLetter (text.getD i ' '))

/-- The inner extension loop of `performElsSearchWithSkipAndDirection`
(part_003): starting at (already matched) position `pos - step`, try to
match the remaining keyword characters `ks` at `pos`, `pos + step`, …;
the position must stay inside `[0, ct.length)` and every character must
match exactly, otherwise the attempt is abandoned. -/
def elsExtend (ct : List Char) (step : Int) : List Char → Int → Option (List Nat)
  | [], _ => some []
  | k :: ks, pos =>
    if 0 ≤ pos ∧ pos < (ct.length : Int) ∧ ct.get? pos.toNat = some k then
      (elsExtend ct step ks (pos + step)).map (pos.toNat :: ·)
    else none

/-- One start-position attempt of the scan loop: the character at `i` must
equal the first keyword character, after which the extension loop runs
from `i + step`. -/
def elsTryStart (ct kw : List Char) (step : Int) (i : Nat) : Option (List Nat) :=
  match kw with
  | [] => none
  | k0 :: ks =>
    if ct.get? i = some k0 then (elsExtend ct step ks ((i : Int) + step)).map (i :: ·)
    else none

/-- The outer scan order: forward direction scans start positions left to
right, backward scans right to left. -/
def elsScanOrder (len : Nat) (forward : Bool) : List Nat :=
  if forward then List.range len else (List.range len).reverse

/-- `performElsSearchWithSkipAndDirection`, first phase (part_003 lines
284-337): guard, clean, scan; results are index sequences into the
cleaned text.  `forward = true` models `direction === 'forward'`.  The
source's `step` is `skip` for forward and `-skip` for backward. -/
def elsSearchNormalized (text kw : List Char) (skip : Int) (forward : Bool) :
    List (List Nat) :=
  if text = [] ∨ kw = [] ∨ skip = 0 then []
  else if cleanText kw = [] then []
  else
    (elsScanOrder (cleanText text).length forward).filterMap
      (elsTryStart (cleanText text) (cleanText kw) (if forward then skip else -skip))

/-- The per-sequence translation step of the second phase: look every
cleaned index up in the map and keep the sequence only when every index
resolved (the source's safeguard `originalSeq.length === seq.length`). -/
def mapSeqToOriginal (m : List Nat) (seq : List Nat) : Option (List Nat) :=
  if (seq.filterMap m.get?).length = seq.length then some (seq.filterMap m.get?)
  else none

/-- `performElsSearchWithSkipAndDirection`, second phase (part_003 lines
338-366): translate each cleaned-index sequence back to original-text
indices through the map. -/
def performElsSearchWithSkipAndDirection (text kw : List Char) (skip : Int)
    (forward : Bool) : List (List Nat) :=
  (elsSearchNormalized text kw skip forward).filterMap
    (mapSeqToOriginal (cleanedToOriginalMap text))


/-! ## The Hebrew letter graph (src/dataModels.ts) -/

/-- `HebrewLetterNode` (src/dataModels.ts lines 8-13). -/
structure HebrewLetterNode where
  letter : Char
  gematria : Nat
  phonetic : String
  spelling : List Char
deriving DecidableEq, Repr

/-- `getNode` (src/dataModels.ts lines 42-44).  The node `Map` keyed by
letter is modelled as the list of nodes in insertion order (a JS `Map`
iterates in insertion order, which the islands computation relies on);
keys are unique whenever the graph was built by `populateNetwork`. -/
def getNode (net : List HebrewLetterNode) (c : Char) : Option HebrewLetterNode :=
  net.find? (fun n => n.letter = c)

/-- The letters of the network's nodes, in map insertion order. -/
def netLetters (net : List HebrewLetterNode) : List Char :=
  net.map (fun n => n.letter)

/-- JS `Set` insertion: append if absent. -/
def insertUnique (l : List Char) (c : Char) : List Char :=
  if c ∈ l then l else l ++ [c]

/-- `populateNetwork` (src/dataModels.ts lines 58-89): collect every letter
occurring as a spelling key or inside a spelling value (in JS `Set`
insertion order), add a node for each with gematria looked up in the
gematria table (`|| 0` default) and placeholder phonetic, then set each
keyed letter's spelling (letters that are not keys keep `[]`).  The source
constructor never stores its `gematriaData` argument (it reads the
unassigned `this.gematriaData`); the embedding reads the table the call
site supplies, which is what that read intends. -/
def populateNetwork (gematriaData : List (Char × Nat))
    (spellings : List (Char × List Char)) : List HebrewLetterNode :=
  ((spellings.flatMap (fun p => p.1 :: p.2)).foldl insertUnique []).map (fun c =>
    { letter := c
      gematria := (gematriaData.lookup c).getD 0
      phonetic := ""
      spelling := (spellings.lookup c).getD [] })

/-- `dfs` (src/dataModels.ts lines 128-142).  The source recurses without
a structural bound, terminating because the shared visited set only grows;
the embedding makes that bound an explicit fuel parameter (theorem
`dfsVisit_stable` below shows the result no longer depends on the fuel
once it reaches the number of unvisited nodes).  The returned visited list
is in visit order, so its new suffix is exactly the sequence of nodes the
callback received. -/
def dfsVisit (net : List HebrewLetterNode) : Nat → Char → List Char → List Char
  | 0, _, visited => visited
  | fuel + 1, start, visited =>
    match getNode net start with
    | none => visited
    | some node =>
      if start ∈ visited then visited
      else node.spelling.foldl (fun v next => dfsVisit net fuel next v) (visited ++ [start])

/-- Number of network letters not yet visited: the quantity that bounds the
depth of `dfs`'s recursion. -/
def unvisitedCount (net : List HebrewLetterNode) (visited : List Char) : Nat :=
  ((netLetters net).filter (fun c => decide (c ∉ visited))).length

/-- The loop body of `breadthFirstSearch` (src/dataModels.ts lines
106-119), with fuel for the `while` loop.  Yields (callback calls) happen
at dequeue time; unvisited spelling letters are marked visited as they are
enqueued.  The source dereferences `getNode(currentLetter)!` without a
check; on a closed graph (every spelled letter is a key, as
`populateNetwork` guarantees) that branch is unreachable, and the
embedding stops there returning the yields so far. -/
def bfsEnqueue (qv : List Char × List Char) (next : Char) : List Char × List Char :=
  if next ∈ qv.2 then qv else (qv.1 ++ [next], qv.2 ++ [next])

def bfsAux (net : List HebrewLetterNode) :
    Nat → List Char → List Char → List Char → List Char
  | 0, _, _, yields => yields
  | _ + 1, [], _, yields => yields
  | fuel + 1, cur :: rest, visited, yields =>
    match getNode net cur with
    | none => yields
    | some node =>
      bfsAux net fuel (node.spelling.foldl bfsEnqueue (rest, visited)).1
        (node.spelling.foldl bfsEnqueue (rest, visited)).2 (yields ++ [cur])

/-- `breadthFirstSearch` (src/dataModels.ts lines 96-120): returns the
yield order of the BFS from `start`.  One unit of fuel per dequeue; every
letter is enqueued at most once, so `net.length + 1` units suffice. -/
def breadthFirstSearch (net : List HebrewLetterNode) (start : Char) : List Char :=
  match getNode net start with
  | none => []
  | some _ => bfsAux net (net.length + 1) [start] [start] []

/-- The component-collecting loop of `identifyAndCalculateIslands`
(src/dataModels.ts lines 229-235): iterate the node map in insertion
order; for each letter not yet in the shared visited set run `dfs`, the
island being the letters the callback received — the new suffix of the
visited list. -/
def islandsFold (net : List HebrewLetterNode) :
    List HebrewLetterNode → List Char × List (List Char) → List Char × List (List Char)
  | [], acc => acc
  | node :: rest, (visited, islands) =>
    if node.letter ∈ visited then islandsFold net rest (visited, islands)
    else
      islandsFold net rest
        (dfsVisit net net.length node.letter visited,
         if (dfsVisit net net.length node.letter visited).drop visited.length = []
         then islands
         else islands ++ [(dfsVisit net net.length node.letter visited).drop visited.length])

/-- The letter sets of the islands of `identifyAndCalculateIslands`. -/
def identifyIslandLetterSets (net : List HebrewLetterNode) : List (List Char) :=
  (islandsFold net net ([], [])).2

/-- `identifyAndCalculateIslands` (src/dataModels.ts lines 217-256):
resolve each island's letters to nodes and total their gematria. -/
def identifyAndCalculateIslands (net : List HebrewLetterNode) :
    List (List HebrewLetterNode × Nat) :=
  (identifyIslandLetterSets net).map (fun ls =>
    (ls.filterMap (getNode net),
     (ls.filterMap (getNode net)).foldl (fun s n => s + n.gematria) 0))

/-- The accumulating loop of `calculatePathGematria`: on the first letter
with no node the function returns 0, discarding the partial total. -/
def pathGematriaAux (net : List HebrewLetterNode) : List Char → Nat → Nat
  | [], total => total
  | c :: cs, total =>
    match getNode net c with
    | some node => pathGematriaAux net cs (total + node.gematria)
    | none => 0

/-- `calculatePathGematria` (src/dataModels.ts lines 150-162). -/
def calculatePathGematria (net : List HebrewLetterNode) (letters : List Char) : Nat :=
  pathGematriaAux net letters 0

/-- Modelled from the spec: `pathWeight` "sums the weight of each
character in order; fails with `UnknownSymbol(char)` if any character is
absent from the graph", the error being "propagated as a typed error to
the caller".  Present only to exhibit how `calculatePathGematria`
(the code) departs from this contract. -/
def pathWeightSpec (net : List HebrewLetterNode) : List Char → Except Char Nat
  | [] => .ok 0
  | c :: cs =>
    match getNode net c with
    | none => .error c
    | some node =>
      match pathWeightSpec net cs with
      | .ok total => .ok (node.gematria + total)
      | .error e => .error e

/-- `getIslandLetters` (src/dataModels.ts lines 263-278). -/
def getIslandLetters (islandName : String) : Option (List Char) :=
  if islandName = "Primary Chain" then
    some ['ז', 'י', 'נ', 'ו', 'ד', 'ל', 'ת', 'מ']
  else if islandName = "Aleph-Pey Loop" then some ['א', 'פ']
  else if islandName = "Resh-Shin Island" then some ['ר', 'ש']
  else if islandName = "Samekh-Kaf Island" then some ['ס', 'כ']
  else if islandName = "Isolated Letters" then
    some ['ב', 'ג', 'ה', 'ח', 'ט', 'ע', 'צ', 'ק']
  else none

/-- The loop of `calculateIslandGematria` (src/dataModels.ts lines
292-301): undefined as soon as a letter has no node. -/
def islandGematriaAux (net : List HebrewLetterNode) : List Char → Nat → Option Nat
  | [], total => some total
  | c :: cs, total =>
    match getNode net c with
    | some node => islandGematriaAux net cs (total + node.gematria)
    | none => none

/-- `calculateIslandGematria` (src/dataModels.ts lines 285-303). -/
def calculateIslandGematria (net : List HebrewLetterNode) (islandName : String) :
    Option Nat :=
  match getIslandLetters islandName with
  | none => none
  | some ls => islandGematriaAux net ls 0

/-- The `standardGematria` table (src/dataModels.ts lines 361-388). -/
def standardGematria : List (Char × Nat) :=
  [('א', 1), ('ב', 2), ('ג', 3), ('ד', 4), ('ה', 5), ('ו', 6), ('ז', 7),
   ('ח', 8), ('ט', 9), ('י', 10), ('כ', 20), ('ל', 30), ('מ', 40),
   ('נ', 50), ('ס', 60), ('ע', 70), ('פ', 80), ('צ', 90), ('ק', 100),
   ('ר', 200), ('ש', 300), ('ת', 400), ('ך', 500), ('ם', 600), ('ן', 700),
   ('ף', 800), ('ץ', 900)]

/-- The `hebrewSpellings` table (src/dataModels.ts lines 389-418). -/
def hebrewSpellings : List (Char × List Char) :=
  [('א', ['א', 'ל', 'ף']), ('ב', ['ב', 'י', 'ת']), ('ג', ['ג', 'י', 'מ', 'ל']),
   ('ד', ['ד', 'ל', 'ת']), ('ה', ['ה', 'א']), ('ו', ['ו', 'ו']),
   ('ז', ['ז', 'י', 'ן']), ('ח', ['ח', 'י', 'ת']), ('ט', ['ט', 'י', 'ת']),
   ('י', ['י', 'ו', 'ד']), ('כ', ['כ', 'ף']), ('ל', ['ל', 'מ', 'ד']),
   ('מ', ['מ', 'ם']), ('נ', ['נ', 'ו', 'ן']), ('ס', ['ס', 'מ', 'ך']),
   ('ע', ['ע', 'י', 'ן']), ('פ', ['פ', 'א']), ('צ', ['צ', 'ד', 'י']),
   ('ק', ['ק', 'ו', 'ף']), ('ר', ['ר', 'י', 'ש']), ('ש', ['ש', 'י', 'ן']),
   ('ת', ['ת', 'ו']), ('ך', ['כ', 'ף']), ('ם', ['מ', 'ם']),
   ('ן', ['נ', 'ו', 'ן']), ('ף', ['פ', 'א']), ('ץ', ['צ', 'ד', 'י'])]

/-- The network instance built at module load
(src/dataModels.ts lines 420-421). -/
def hebrewNetwork : List HebrewLetterNode :=
  populateNetwork standardGematria hebrewSpellings

/-! ## Standard gematria (src/utils/gematriaUtils.ts) -/

/-- `calculateStandardGematria` (src/utils/gematriaUtils.ts lines 23-50):
fold over the characters of the input; each character goes through
per-character lowercasing, then the Hebrew-character map and the
transliteration-key map built from a data table
(`hebrewAlphabetData.json`, a file that is not part of src/); a character
that resolves contributes its `standard_gematria`, any other character is
silently skipped.  The whole per-character resolution pipeline is
abstracted as a single lookup `resolve : Char → Option Nat`, so the
theorems below hold for every data table. -/
def calculateStandardGematria (resolve : Char → Option Nat) (s : List Char) : Nat :=
  s.foldl (fun total c =>
    match resolve c with
    | some v => total + v
    | none => total) 0

/-! ## The significance scorer (unnamed part_003) -/

/-- JS `String.prototype.substring`: clamp both arguments into
`[0, length]`, swap when reversed, return the slice. -/
def jsSubstring (s : List Char) (a b : Int) : List Char :=
  ((s.take (max ((min (max a 0) (s.length : Int)).toNat)
      ((min (max b 0) (s.length : Int)).toNat))).drop
    (min ((min (max a 0) (s.length : Int)).toNat)
      ((min (max b 0) (s.length : Int)).toNat)))

/-- JS single-character index `s[i]`: the one-character string, or the
empty string when out of range (the source only indexes in range on the
live paths; on the one dead branch where JS would read `undefined`, the
embedding reads the empty string). -/
def jsCharAtStr (s : List Char) (i : Int) : List Char :=
  if 0 ≤ i ∧ i < (s.length : Int) then [s.getD i.toNat ' '] else []

/-- JS `String.prototype.includes`: substring test. -/
def listIsSubstring (pat s : List Char) : Bool :=
  (List.range (s.length + 1)).any (fun i => pat.isPrefixOf (s.drop i))

/-- The `commonHebrewRoots` list of `checkForMeaningfulPhrases`
(part_003 lines 374-376). -/
def commonHebrewRoots : List String :=
  ["קדש", "שלם", "ברא", "אלה", "שמים", "ארץ", "חי", "אמת", "כליל", "ספר",
   "עולם", "נפש", "רוח", "גוף", "דעת"]

/-- The `commonHebrewPrefixes` list (part_003 line 379). -/
def commonHebrewPrefixes : List String :=
  ["ב", "כ", "ל", "מ", "ש", "ה", "ו"]

/-- The `commonHebrewSuffixes` list (part_003 line 380). -/
def commonHebrewSuffixes : List String :=
  ["ים", "ות", "ה"]

/-- The `commonHebrewPhrases` list (part_003 lines 386-388). -/
def commonHebrewPhrases : List String :=
  ["בראשית ברא אלהים", "יהוה אלהים", "ארץ ושמים", "והארץ היתה תהו ובהו",
   "ורוח אלהים מרחפת על פני המים", "יהי אור ויהי אור",
   "אלהים ראה את האור כי טוב", "ויבדל אלהים בין האור ובין החשך"]

/-- The `commonHebrewWords` lexicon of `checkForMeaningfulPhrases`
(part_003 lines 391-461), transcribed entry by entry.  Several source
entries are syntactically malformed string literals (unbalanced double
quotes from gershayim abbreviations and dropped opening quotes); the
transcription takes each comma-separated token with its intended
characters. -/
def commonHebrewWords : List String :=
  ["אב", "אבא", "אבה", "אבן", "אדם", "אדמה", "אדני", "אהב", "אהבה", "אוהב",
   "אור", "אות", "אזן", "אח", "אחר", "אחות", "איש", "אלה", "אלהים", "אלף",
   "אם", "אמן", "אמר", "אמת", "אנכי", "אני", "אף", "אפר", "ארבע", "ארון",
   "ארץ", "אש", "אשר", "את", "אתה", "אתם", "בגד", "בהמה", "בוקר", "בורא",
   "בית", "בכור", "בל", "בן", "בנה", "בני", "בקר", "ברא", "ברכה", "ברית",
   "בשר", "בת", "גב", "גדול", "גוז", "גוי", "גוף", "גור", "גזע", "גיל", "גל",
   "גלגל", "גם", "גן", "גנב", "געש", "גפן", "גר", "דרך", "דבר", "דבש", "דוד",
   "דור", "דם", "דמע", "דעת", "דק", "דקל", "דשן", "הוא", "היה", "הלך", "הלל",
   "הנה", "הר", "ורד", "זה", "זכר", "זמן", "זרע", "חוה", "חזה", "חטא", "חטא",
   "חי", "חיה", "חכם", "חכמה", "חלום", "חלב", "חם", "חמס", "חסד", "חסר",
   "חרב", "חרי", "חרם", "חשב", "חשך", "חתן", "טוב", "טובע", "טהר", "טהרה",
   "טמא", "טמאה", "טעם", "טרם", "ים", "ידע", "יד", "יהודה", "יהוה", "יום",
   "יוצר", "יחד", "יחיד", "ילד", "ילד", "ימין", "יסוד", "יעד", "יפה", "יצא",
   "יצר", "יצחק", "יקיר", "ירא", "ירא", "ירד", "ישב", "ישועה", "ישראל", "יתר",
   "כבד", "כבוד", "כהן", "כול", "כוכב", "כי", "כלי", "כם", "כמו", "כסף",
   "כסא", "כעס", "כפר", "כתב", "כתר", "לב", "לבד", "לבוש", "לחם", "למד",
   "למשל", "למטה", "למערב", "למעלה", "למזרח", "לנו", "לעולם", "לפני", "לקח",
   "לשון", "לשם", "מאד", "מאה", "מאור", "מבוא", "מגדל", "מדי", "מדבר", "מה",
   "מובא", "מוצא", "מזבח", "מזל", "מחנה", "מחשבה", "מטרה", "מלך", "מלכות",
   "מם", "מנהיג", "מנורה", "מספר", "מעט", "מעלה", "מערב", "מקדש", "מקום",
   "מרכבה", "משכן", "משפט", "נביא", "נבואה", "נגד", "נהר", "נוח", "נח", "נחש",
   "נטע", "ניר", "נפש", "נצר", "נר", "נשמה", "נתן", "סוד", "סוכה", "סלע",
   "ספר", "עב", "עבד", "עבד", "עבור", "עז", "עזר", "עין", "עיר", "עם", "עמד",
   "עולם", "עולת", "עץ", "עפר", "עקב", "ערב", "ערך", "עשר", "עת", "פה",
   "פורה", "פתח", "פני", "פסח", "צבא", "צדק", "צוה", "צאן", "ציון", "צמח",
   "צפון", "קבר", "קדש", "קהל", "קול", "קום", "קודש", "קנה", "קניין", "קרא",
   "קרבן", "קשת", "ראש", "ראשי", "רגל", "רוח", "רחמים", "רע", "רעה", "רקיע",
   "שאר", "שאול", "שבת", "שבע", "שדה", "שוב", "שופט", "שופר", "שור", "שמים",
   "שמע", "שם", "שנה", "שנא", "שער", "שפה", "שקל", "שר", "שרה", "שרף", "תאנה",
   "תורה", "תחת", "תוצאה", "תודה", "תמיד", "תפילה", "תקופה", "תשובה", "תשע",
   "תשעה", "כליל", "ספירה", "עולם", "נשמה", "רוח", "נפש", "יחידה", "חיה",
   "כסא", "מרכבה", "רקיע", "שמים", "ארץ", "תהום", "תוהו", "בוהו", "חשך",
   "אור", "חיים", "מוות", "אות", "מלה", "צרוף", "גימטריה", "נוטריקון",
   "תמורה", "פרדס", "רמז", "דרש", "סוד", "פשט", "גוף", "נפש", "רוח", "שכל",
   "נורא", "אדיר", "קדוש", "ברוך", "מבורך", "אמת", "שקר", "טוב", "רע", "ישר",
   "עקוב", "פשט", "קשר", "דבר", "חכמה", "בינה", "דעת", "חסד", "גבורה",
   "תפארת", "נצח", "הוד", "יסוד", "מלכות", "כתר", "היולי", "תולדה", "האצלה",
   "בריאה", "יצירה", "עשיה", "אדם קדמון", "אדם עליון", "אדם תחתון", "צמצום",
   "קו", "רשימו", "שבירת כלים", "תיקון", "אחוריים", "פנים", "זוהר",
   "ספר יצירה", "ספר הבהיר", "עץ חיים", "פרי עץ חיים", "שער הכוונות",
   "תומר דבורה", "שולחן ערוך", "משנה תורה", "תלמוד", "מדרש", "פיוט", "תחנון",
   "מלאך", "שרף", "אראלים", "חשמלים", "מלכים", "בני אלהים", "אלהים", "יהוה",
   "אדני", "אהיה", "שדי", "צבאות", "אלהים צבאות", "יהוה צבאות", "אל עליון",
   "אל שדי", "אל רחום וחנון", "שם המפורש", "א\"ב\"ג\"י\"ת\"צ",
   "קר\"ע שטן נג\"ד יכ\"ש בט\"ר צת\"ג", "פרצוף", "אריך אנפין", "זעיר אנפין",
   "אבא", "אמא", "ישראל סבא", "תבונה", "רחל", "לאה", "נקודה", "קו", "שטח",
   "גוף", "עולם", "שנה", "נפש", "חומר", "צורה", "סיבה", "מסובב", "תכלית",
   "חיים", "מוות", "טוב", "רע", "אמת", "שקר", "שלום", "מלחמה", "בריאה",
   "חורבן", "בניין", "הריסה", "זמן", "מקום", "תנועה", "שינוי", "התפתחות",
   "נסיגה", "מעגל", "קו ישר", "ספירלה", "גל", "תדר", "אחד", "שנים", "שלוש",
   "ארבע", "חמש", "שש", "שבע", "שמונה", "תשע", "עשר", "מאה", "אלף", "רבוא",
   "ראשית", "אחרית", "תחילה", "סוף", "אמצע", "צפון", "דרום", "מזרח", "מערב",
   "מעלה", "מטה", "עיגול", "ריבוע", "משולש", "קו", "נקודה", "חלל", "זמן",
   "אור", "צל", "אש", "מים", "רוח", "עפר", "יוד", "הא", "ויו", "הא", "אב",
   "בן", "רוח הקדש", "משפחה", "קהילה", "אומה", "עולם", "יקום", "קוסמוס",
   "מקרוקוסמוס", "מיקרוקוסמוס", "נבט", "שורש", "גזע", "ענף", "עלה", "פרח",
   "פרי", "זרע", "קליפה", "גרעין", "עץ", "גן", "שדה", "בית", "מקדש", "מזבח",
   "שולחן", "מנורה", "ארון", "פרוכת", "קודש הקדשים", "היכל", "אולם", "חצר",
   "בגד", "כלי", "כסף", "זהב", "נחושת", "ברזל", "עץ", "אבן", "מים", "אש",
   "רוח", "עפר", "חי", "מת", "ישן", "ער", "אוכל", "שותה", "הולך", "יושב",
   "עומד", "שוכב", "מדבר", "שותק", "רואה", "שומע", "מרגיש", "חושב", "יודע",
   "מאמין", "תפילה", "ברכה", "הודאה", "בקשה", "וידוי", "תשובה", "צדקה", "חסד",
   "גבורה", "רחמים", "אמת", "שלום", "משפט", "דין", "חן", "רצון", "אהבה",
   "יראה", "מצווה", "חוק", "משפט", "עדות", "פרוש", "דרש", "רמז", "סוד",
   "פרדס", "גלות", "גאולה", "משיח", "בן דוד", "בן יוסף", "אליהו", "צדיק",
   "רשע", "בינוני", "עולם הבא", "גן עדן", "גיהינום", "תחיית המתים",
   "יום הדין", "עולם האצילות", "עולם הבריאה", "עולם היצירה", "עולם העשיה",
   "כסא הכבוד", "מרכבה", "אופנים", "חיות הקודש", "שרפים", "אראלים", "תרשישים",
   "מלכים", "בני אלהים", "ישראל", "זכר", "נקבה", "אדם", "חוה", "איש", "אשה",
   "זוג", "פרי", "רביה", "לידה", "מוות", "ראש", "לב", "כבד", "ריאה", "כליות",
   "עצמות", "דם", "בשר", "עור", "גידים", "עצבים", "עין", "אוזן", "פה", "אף",
   "יד", "רגל", "אצבע", "ציפורן", "שער", "עור", "בשר", "שמש", "ירח", "כוכב",
   "מזל", "שבתאי", "צדק", "מאדים", "חמה", "נוגה", "כוכב", "לבנה", "אביב",
   "קיץ", "סתיו", "חורף", "יום", "לילה", "שעה", "דקה", "שניה", "רגע", "עידן",
   "תקופה", "ברק", "רעם", "גשם", "טל", "שלג", "ברד", "ענן", "רוח", "סערה",
   "רעידת אדמה", "צונאמי", "הר געש", "אריה", "שור", "נמר", "דוב", "זאב",
   "שועל", "חתול", "כלב", "אריה", "נשר", "נחש", "דג", "ציפור", "עץ חיים",
   "עץ הדעת", "נהר", "גן עדן", "ארבעה נהרות", "פישון", "גיחון", "חדקל", "פרת",
   "אברהם", "יצחק", "יעקב", "שרה", "רבקה", "רחל", "לאה", "שנים עשר שבטים",
   "משה", "אהרן", "מרים", "יהושע", "שופטים", "מלכים", "נביאים", "כתובים",
   "תורה", "נביאים ראשונים", "נביאים אחרונים", "כתובים", "תהילים", "משלי",
   "איוב", "שיר השירים", "רות", "איכה", "קהלת", "אסתר", "דניאל", "עזרא",
   "נחמיה", "דברי הימים", "ישעיהו", "ירמיהו", "יחזקאל", "הושע", "יואל",
   "עמוס", "עובדיה", "יונה", "מיכה", "נחום", "חבקוק", "צפניה", "חגי", "זכריה",
   "מלאכי", "בראשית", "שמות", "ויקרא", "במדבר", "דברים", "הלכה", "אגדה",
   "מצווה", "עבירה", "חטא", "זכות", "עונש", "שכר", "קודש", "חול", "טהור",
   "טמא", "מותר", "אסור", "מצוה עשה", "מצוה לא תעשה", "שם", "פועל", "תואר",
   "תואר הפועל", "מלת יחס", "מלת קישור", "מלת שאלה", "מלת קריאה", "יחיד",
   "רבים", "זכר", "נקבה", "עבר", "הווה", "עתיד", "ציווי", "מקור", "בינוני",
   "שורש", "בניין", "גזרת", "משקל", "נטיה", "סמיכות", "כינוי", "שם עצם",
   "שם תואר", "תנ\"ך", "משנה", "תלמוד", "מדרש", "קבלה", "חסידות", "מוסר",
   "הלכה", "אגדה", "ראש השנה", "יום כיפור", "סוכות", "פסח", "שבועות", "פורים",
   "חנוכה", "ט\"ו בשבט", "ל\"ג בעומר", "תשעה באב", "ארץ ישראל", "ירושלים",
   "בית המקדש", "הכותל המערבי", "הר הבית", "כינרת", "ים המלח", "נהר הירדן",
   "שבט", "עגל", "פר", "כבש", "איל", "עז", "גדי", "שור", "פרה", "שורש",
   "מספר", "גימטריה", "אות", "מילה", "פסוק", "פרק", "ספר", "תורה", "נביאים",
   "כתובים", "בריאה", "יצירה", "עשיה", "אצילות", "קדמון", "אדם", "עולם",
   "שנה", "נפש", "חיים", "מוות", "טוב", "רע", "אמת", "שקר", "שלום", "מלחמה",
   "זמן", "מקום", "תנועה", "שינוי", "התפתחות", "נסיגה", "אור", "צל", "אש",
   "מים", "רוח", "עפר", "יוד", "הא", "ויו", "הא", "אלף", "בית", "גימל", "דלת",
   "הא", "ויו", "זין", "חית", "טית", "יוד", "כף", "למד", "מם", "נון", "סמך",
   "עין", "פה", "צדי", "קוף", "ריש", "שין", "תו", "כף סופית", "מם סופית",
   "נון סופית", "פה סופית", "צדי סופית"]

/-- Pass 1 of `checkForMeaningfulPhrases`, per generated combination
(part_003 lines 517-556): prefix/suffix/word checks on the cleaned
combination (no de-duplication in this pass), then the phrase check with
its adjacent-letter attribution.  The phrase branch is unreachable in
practice — `extractHebrewLetters` strips the spaces every lexicon phrase
contains — and on it the embedding reads the empty string where JS would
read `undefined`. -/
def pass1Combo (text : List Char) (firstIndex lastIndex : Nat) (combo : List Char) :
    List String :=
  (commonHebrewPrefixes.flatMap (fun p =>
    if p.data.isPrefixOf (cleanText combo) ∧ p.data.length < (cleanText combo).length
    then ["Combination starts with common prefix: " ++ p] else []))
  ++ (commonHebrewSuffixes.flatMap (fun suf =>
    if suf.data.isSuffixOf (cleanText combo) ∧ suf.data.length < (cleanText combo).length
    then ["Combination ends with common suffix: " ++ suf] else []))
  ++ (if commonHebrewWords.contains (String.mk (cleanText combo)) then
    ["Forms word \x27" ++ String.mk (cleanText combo) ++ "\x27 with adjacent letters"]
    else [])
  ++ (if commonHebrewPhrases.contains (String.mk (extractHebrewLetters combo)) then
    (let part1 : String :=
      if (cleanText (jsSubstring text ((firstIndex : Int) - 2) (firstIndex : Int))).isPrefixOf
          combo then "2 preceding, "
      else if (cleanText (jsCharAtStr text ((firstIndex : Int) - 1))).isPrefixOf combo then
        "1 preceding, "
      else ""
    let part2 : String :=
      if (cleanText (jsSubstring text ((lastIndex : Int) + 1) ((lastIndex : Int) + 3))).isSuffixOf
          combo then "2 succeeding, "
      else if (cleanText (jsCharAtStr text ((lastIndex : Int) + 1))).isSuffixOf combo then
        "1 succeeding, "
      else ""
    let adjacentPart : String :=
      if (", ".data).isSuffixOf (part1 ++ part2).data then
        String.mk ((part1 ++ part2).data.take ((part1 ++ part2).data.length - 2))
      else part1 ++ part2
    if adjacentPart ≠ "" then
      ["Forms word \x27" ++ String.mk (cleanText combo) ++
        "\x27 with adjacent letters (" ++ adjacentPart ++ ")"]
    else
      ["Forms a word \x27" ++ String.mk (cleanText combo) ++ "\x27 with adjacent letters"])
    else [])

/-- The `adjacentCombinations` of pass 1 (part_003 lines 480-516): up to
two preceding letters, up to two succeeding letters (the loop header
stops as soon as the bound fails), and the one-before/one-after
combination — each in a raw and a cleaned variant. -/
def pass1Combos (text : List Char) (firstIndex lastIndex : Nat)
    (seqChars cleanedSeq : List Char) : List (List Char) :=
  (if 0 ≤ (firstIndex : Int) - 1 then
    [jsSubstring text ((firstIndex : Int) - 1) (firstIndex : Int) ++ seqChars,
     cleanText (jsSubstring text ((firstIndex : Int) - 1) (firstIndex : Int)) ++ cleanedSeq]
   else [])
  ++ (if 0 ≤ (firstIndex : Int) - 2 then
    [jsSubstring text ((firstIndex : Int) - 2) (firstIndex : Int) ++ seqChars,
     cleanText (jsSubstring text ((firstIndex : Int) - 2) (firstIndex : Int)) ++ cleanedSeq]
   else [])
  ++ (if (lastIndex : Int) + 1 < (text.length : Int) then
    [seqChars ++ jsSubstring text ((lastIndex : Int) + 1) ((lastIndex : Int) + 2),
     cleanedSeq ++ cleanText (jsSubstring text ((lastIndex : Int) + 1) ((lastIndex : Int) + 2))]
    ++ (if (lastIndex : Int) + 2 < (text.length : Int) then
      [seqChars ++ jsSubstring text ((lastIndex : Int) + 1) ((lastIndex : Int) + 3),
       cleanedSeq ++ cleanText (jsSubstring text ((lastIndex : Int) + 1) ((lastIndex : Int) + 3))]
     else [])
   else [])
  ++ (if 0 < firstIndex ∧ (lastIndex : Int) < (text.length : Int) - 1 then
    [jsCharAtStr text ((firstIndex : Int) - 1) ++ seqChars ++ jsCharAtStr text ((lastIndex : Int) + 1),
     cleanText (jsCharAtStr text ((firstIndex : Int) - 1)) ++ cleanedSeq ++
       cleanText (jsCharAtStr text ((lastIndex : Int) + 1))]
   else [])

/-- The `stringsToCheck` of pass 2 (part_003 lines 559-581): the cleaned
sequence itself plus cleaned adjacent combinations. -/
def pass2Strings (text : List Char) (indices : List Nat) (cleanedSeq : List Char) :
    List (List Char) :=
  [cleanedSeq] ++
    (match indices.head?, indices.getLast? with
     | some firstIndex, some lastIndex =>
       (if 0 ≤ (firstIndex : Int) - 1 then
         [cleanText (jsSubstring text ((firstIndex : Int) - 1) (firstIndex : Int)) ++ cleanedSeq]
        else [])
       ++ (if 0 ≤ (firstIndex : Int) - 2 then
         [cleanText (jsSubstring text ((firstIndex : Int) - 2) (firstIndex : Int)) ++ cleanedSeq]
        else [])
       ++ (if (lastIndex : Int) + 1 < (text.length : Int) then
         [cleanedSeq ++ cleanText (jsSubstring text ((lastIndex : Int) + 1) ((lastIndex : Int) + 2))]
         ++ (if (lastIndex : Int) + 2 < (text.length : Int) then
           [cleanedSeq ++ cleanText (jsSubstring text ((lastIndex : Int) + 1) ((lastIndex : Int) + 3))]
          else [])
        else [])
       ++ (if 0 < firstIndex ∧ (lastIndex : Int) < (text.length : Int) - 1 then
         [cleanText (jsCharAtStr text ((firstIndex : Int) - 1)) ++ cleanedSeq ++
           cleanText (jsCharAtStr text ((lastIndex : Int) + 1))]
        else [])
     | _, _ => [])

/-- Pass 2 of `checkForMeaningfulPhrases`, per checked string (part_003
lines 584-633): prefix, suffix, word, phrase and consonant-root checks,
each de-duplicated against the reasons accumulated so far. -/
def pass2String (reasons : List String) (str : List Char) : List String :=
  if str.length = 0 then reasons
  else
    let r1 := commonHebrewPrefixes.foldl (fun rs p =>
      if p.data.isPrefixOf str ∧ p.data.length < str.length ∧
          ¬ rs.contains ("Starts with common prefix: " ++ p)
      then rs ++ ["Starts with common prefix: " ++ p] else rs) reasons
    let r2 := commonHebrewSuffixes.foldl (fun rs suf =>
      if suf.data.isSuffixOf str ∧ suf.data.length < str.length ∧
          ¬ rs.contains ("Ends with common suffix: " ++ suf)
      then rs ++ ["Ends with common suffix: " ++ suf] else rs) r1
    let r3 :=
      if commonHebrewWords.contains (String.mk str) ∧
          ¬ r2.contains ("Forms the Hebrew word: " ++ String.mk str)
      then r2 ++ ["Forms the Hebrew word: " ++ String.mk str] else r2
    let r4 :=
      if commonHebrewPhrases.contains (String.mk str) ∧
          ¬ r3.contains ("Forms the common Hebrew phrase: " ++ String.mk str)
      then r3 ++ ["Forms the common Hebrew phrase: " ++ String.mk str] else r3
    commonHebrewRoots.foldl (fun rs root =>
      if listIsSubstring root.data (str.filter (fun c => ¬ (c = 'ו' ∨ c = 'י'))) ∧
          ¬ rs.contains ("Contains the root: " ++ root)
      then rs ++ ["Contains the root: " ++ root] else rs) r4

/-- `checkForMeaningfulPhrases` (part_003 lines 369-634): the sequence
word/phrase checks, pass 1 over the raw adjacent combinations, then the
"re-implemented" pass 2 over the cleaned strings, all appending to one
reasons list. -/
def checkForMeaningfulPhrases (indices : List Nat) (text : List Char) : List String :=
  let seqChars := indices.flatMap (fun i => jsCharAtStr text (i : Int))
  let cleanedSeq := cleanText seqChars
  let r0 :=
    (if commonHebrewWords.contains (String.mk cleanedSeq) then
      ["Forms the Hebrew word: " ++ String.mk cleanedSeq] else [])
    ++ (if commonHebrewPhrases.contains (String.mk seqChars) then
      ["Forms the common Hebrew phrase: " ++ String.mk seqChars]
      else if commonHebrewPhrases.contains (String.mk (extractHebrewLetters seqChars)) then
      ["Forms the common Hebrew phrase: " ++ String.mk (extractHebrewLetters seqChars) ++
        " (cleaned)"]
      else [])
  let r1 :=
    match indices.head?, indices.getLast? with
    | some firstIndex, some lastIndex =>
      r0 ++ (pass1Combos text firstIndex lastIndex seqChars cleanedSeq).flatMap
        (pass1Combo text firstIndex lastIndex)
    | _, _ => r0
  (pass2Strings text indices cleanedSeq).foldl pass2String r1

/-- One aggregated search result: a skip and its match sequences
(original-text indices), the element type of the scorer's input. -/
structure ElsSkipResult where
  skip : Int
  indices : List (List Nat)
deriving DecidableEq, Repr

/-- One entry of the scorer's output. -/
structure SignificantFinding where
  skip : Int
  indices : List (List Nat)
  significance : List String
deriving DecidableEq, Repr

/-- The `skipFrequencies` map (part_003 lines 854-857): `Map.set` per
result makes the last entry for a skip win. -/
def skipFrequency (results : List ElsSkipResult) (skip : Int) : Nat :=
  match results.reverse.find? (fun r => r.skip = skip) with
  | some r => r.indices.length
  | none => 0

/-- The `tierGematriaValues` table (part_003 lines 833-841); JS iterates
the numeric keys in ascending order. -/
def tierGematriaValues : List (Nat × Nat) :=
  [(1, 547), (2, 500), (3, 287), (4, 81), (5, 80)]

/-- The per-sequence significance tags of `identifySignificantElsFindings`
(part_003 lines 862-962), in push order.  `calculateNumberGematria` is the
identity on its argument (part_003 lines 815-826), so the "skip gematria"
is the skip itself. -/
def significanceReasonsFor (net : List HebrewLetterNode) (results : List ElsSkipResult)
    (keywordGematria : Nat) (text : List Char) (skip : Int)
    (allIdx : List (List Nat)) (i : Nat) (seq : List Nat) : List String :=
  let seqChars := seq.flatMap (fun idx => jsCharAtStr text (idx : Int))
  let sequenceGematria := calculatePathGematria net (extractHebrewLetters seqChars)
  let freq := skipFrequency results skip
  let clustered := allIdx.enum.any (fun q =>
    q.1 ≠ i ∧ seq ≠ [] ∧ q.2 ≠ [] ∧
      ((seq.headD 0 : Int) - (q.2.headD 0 : Int)).natAbs < 100)
  let sequenceLetters := seqChars.filter isHebrewLetter
  let loopLetters : List Char := ['א', 'פ', 'מ', 'ו']
  (if skip ≠ 0 ∧ skip = (keywordGematria : Int) then ["Skip matches keyword Gematria"] else [])
  ++ (if sequenceGematria = keywordGematria then
    ["Sequence Gematria matches keyword Gematria"] else [])
  ++ (if 1 < freq then ["Skip has multiple occurrences"] else [])
  ++ (if 3 ≤ freq then ["High Skip Frequency"] else [])
  ++ (if clustered then ["Sequence is clustered"] else [])
  ++ (["Primary Chain", "Isolated Letters"].flatMap (fun name =>
    match getIslandLetters name with
    | none => []
    | some islandLetters =>
      if 0 < (sequenceLetters.filter (fun c => islandLetters.contains c)).length ∧
          (sequenceLetters.filter (fun c => islandLetters.contains c)).length =
            sequenceLetters.length ∧ 0 < sequenceLetters.length then
        ["Letters primarily from " ++ name ++ " island"]
      else if (sequenceLetters.length + 1) / 2 ≤
            (sequenceLetters.filter (fun c => islandLetters.contains c)).length ∧
          0 < sequenceLetters.length then
        ["Majority of letters from " ++ name ++ " island"]
      else []))
  ++ (["Primary Chain", "Isolated Letters"].flatMap (fun name =>
    match calculateIslandGematria net name with
    | some g => if skip = (g : Int) then
        ["Skip Gematria matches " ++ name ++ " island Gematria"] else []
    | none => []))
  ++ (if sequenceLetters.any (fun c => loopLetters.contains c) then
    ["Contains Loop letter(s)"] else [])
  ++ (if sequenceLetters.any (fun c => c = 'י') then ["Contains Hub letter (Yud)"] else [])
  ++ (if skip ≠ 0 ∧ calculatePathGematria net (extractHebrewLetters loopLetters) ≠ 0 ∧
      skip = (calculatePathGematria net (extractHebrewLetters loopLetters) : Int) then
    ["Skip Gematria matches Loop Letters Gematria"] else [])
  ++ (if skip ≠ 0 ∧ calculatePathGematria net (extractHebrewLetters ['י']) ≠ 0 ∧
      skip = (calculatePathGematria net (extractHebrewLetters ['י']) : Int) then
    ["Skip Gematria matches Yud Gematria"] else [])
  ++ (tierGematriaValues.flatMap (fun p =>
    if sequenceGematria = p.2 then
      ["Sequence Gematria matches Tier " ++ toString p.1 ++ " Gematria"] else []))
  ++ checkForMeaningfulPhrases seq text

/-- `identifySignificantElsFindings` (part_003 lines 829-970): for every
aggregated result and every sequence in it, compute the significance
tags; a sequence with at least one tag yields an output entry (in input
iteration order — the function never sorts); a sequence with none is
dropped. -/
def identifySignificantElsFindings (net : List HebrewLetterNode)
    (results : List ElsSkipResult) (keyword text : List Char) : List SignificantFinding :=
  results.flatMap (fun r =>
    r.indices.enum.filterMap (fun p =>
      if significanceReasonsFor net results (calculatePathGematria net (cleanText keyword))
          text r.skip r.indices p.1 p.2 = [] then none
      else some { skip := r.skip, indices := [p.2],
                  significance := significanceReasonsFor net results
                    (calculatePathGematria net (cleanText keyword)) text r.skip
                    r.indices p.1 p.2 }))

/-! ## Helper lemmas about the ELS search -/

theorem elsExtend_length {ct : List Char} {step : Int} :
    ∀ (ks : List Char) (pos : Int) (l : List Nat),
      elsExtend ct step ks pos = some l → l.length = ks.length := by
  intro ks
  induction ks with
  | nil =>
    intro pos l h
    simp only [elsExtend, Option.some.injEq] at h
    subst h
    rfl
  | cons k ks ih =>
    intro pos l h
    simp only [elsExtend] at h
    split at h
    · rcases Option.map_eq_some'.mp h with ⟨rest, hrest, hl⟩
      subst hl
      simp [ih _ _ hrest]
    · exact absurd h (by simp)

theorem elsExtend_chain {ct : List Char} {step : Int} :
    ∀ (ks : List Char) (pos : Int) (l : List Nat),
      elsExtend ct step ks pos = some l →
      List.Chain' (fun a b : Nat => (b : Int) = (a : Int) + step) l ∧
        ∀ x ∈ l.head?, (x : Int) = pos := by
  intro ks
  induction ks with
  | nil =>
    intro pos l h
    simp only [elsExtend, Option.some.injEq] at h
    subst h
    exact ⟨List.chain'_nil, by simp⟩
  | cons k ks ih =>
    intro pos l h
    simp only [elsExtend] at h
    split at h
    case isTrue hb =>
      rcases Option.map_eq_some'.mp h with ⟨rest, hrest, hl⟩
      subst hl
      obtain ⟨hchain, hhead⟩ := ih _ _ hrest
      have hcast : ((pos.toNat : Int)) = pos := Int.toNat_of_nonneg hb.1
      refine ⟨List.chain'_cons'.mpr ⟨?_, hchain⟩, ?_⟩
      · intro y hy
        rw [hcast]
        exact hhead y hy
      · intro x hx
        simp only [List.head?_cons, Option.mem_def, Option.some.injEq] at hx
        subst hx
        exact hcast
    case isFalse => exact absurd h (by simp)

theorem elsTryStart_chain {ct kw : List Char} {step : Int} {i : Nat} {m : List Nat}
    (h : elsTryStart ct kw step i = some m) :
    List.Chain' (fun a b : Nat => (b : Int) = (a : Int) + step) m := by
  cases kw with
  | nil => simp [elsTryStart] at h
  | cons k0 ks =>
    simp only [elsTryStart] at h
    split at h
    · rcases Option.map_eq_some'.mp h with ⟨rest, hrest, hl⟩
      subst hl
      obtain ⟨hchain, hhead⟩ := elsExtend_chain ks _ rest hrest
      refine List.chain'_cons'.mpr ⟨?_, hchain⟩
      intro y hy
      exact hhead y hy
    · exact absurd h (by simp)

theorem elsTryStart_length {ct kw : List Char} {step : Int} {i : Nat} {m : List Nat}
    (h : elsTryStart ct kw step i = some m) : m.length = kw.length := by
  cases kw with
  | nil => simp [elsTryStart] at h
  | cons k0 ks =>
    simp only [elsTryStart] at h
    split at h
    · rcases Option.map_eq_some'.mp h with ⟨rest, hrest, hl⟩
      subst hl
      simp [elsExtend_length ks _ rest hrest]
    · exact absurd h (by simp)

theorem elsSearchNormalized_mem {text kw : List Char} {skip : Int} {fwd : Bool}
    {m : List Nat} (h : m ∈ elsSearchNormalized text kw skip fwd) :
    ∃ i, elsTryStart (cleanText text) (cleanText kw)
        (if fwd then skip else -skip) i = some m := by
  unfold elsSearchNormalized at h
  split at h
  · simp at h
  · split at h
    · simp at h
    · rcases List.mem_filterMap.mp h with ⟨i, _, hi⟩
      exact ⟨i, hi⟩

theorem mapSeqToOriginal_length {mp seq orig : List Nat}
    (h : mapSeqToOriginal mp seq = some orig) : orig.length = seq.length := by
  unfold mapSeqToOriginal at h
  split at h
  case isTrue hl =>
    rw [Option.some.injEq] at h
    subst h
    exact hl
  case isFalse => exact absurd h (by simp)

theorem cleanedToOriginalMap_cons (c : Char) (t : List Char) :
    cleanedToOriginalMap (c :: t) =
      (if isHebrewLetter c then [0] else []) ++
        (cleanedToOriginalMap t).map (· + 1) := by
  unfold cleanedToOriginalMap
  rw [List.length_cons, List.range_succ_eq_map, List.filter_cons, List.filter_map]
  have hp : ((fun i => isHebrewLetter ((c :: t).getD i ' ')) ∘ Nat.succ) =
      (fun i => isHebrewLetter (t.getD i ' ')) := by
    funext i
    simp [List.getD_cons_succ]
  rw [hp]
  by_cases hc : isHebrewLetter c <;> simp [hc, Nat.succ_eq_add_one]

theorem cleanedToOriginalMap_length (t : List Char) :
    (cleanedToOriginalMap t).length = (cleanText t).length := by
  induction t with
  | nil => rfl
  | cons c t ih =>
    rw [cleanedToOriginalMap_cons]
    unfold cleanText at ih ⊢
    rw [List.filter_cons]
    by_cases hc : isHebrewLetter c <;> simp [hc, ih]

theorem cleanedToOriginalMap_pairwise (t : List Char) :
    (cleanedToOriginalMap t).Pairwise (· < ·) := by
  induction t with
  | nil => simp [cleanedToOriginalMap]
  | cons c t ih =>
    rw [cleanedToOriginalMap_cons]
    have hmap : ((cleanedToOriginalMap t).map (· + 1)).Pairwise (· < ·) := by
      rw [List.pairwise_map]
      exact ih.imp (fun h => by omega)
    by_cases hc : isHebrewLetter c
    · simp only [hc, if_true, List.singleton_append, List.pairwise_cons]
      refine ⟨?_, hmap⟩
      intro b hb
      rcases List.mem_map.mp hb with ⟨a, _, rfl⟩
      omega
    · simpa [hc] using hmap

theorem cleanedToOriginalMap_mem (t : List Char) :
    ∀ p ∈ cleanedToOriginalMap t,
      p < t.length ∧ isHebrewLetter (t.getD p ' ') = true := by
  induction t with
  | nil => simp [cleanedToOriginalMap]
  | cons c t ih =>
    intro p hp
    rw [cleanedToOriginalMap_cons] at hp
    rcases List.mem_append.mp hp with h0 | hmap
    · have hc : isHebrewLetter c := by
        by_contra hcon
        simp [hcon] at h0
      have hp0 : p = 0 := by
        simp [hc] at h0
        exact h0
      subst hp0
      exact ⟨Nat.succ_pos _, by simpa using hc⟩
    · rcases List.mem_map.mp hmap with ⟨q, hq, rfl⟩
      obtain ⟨hlt, hlet⟩ := ih q hq
      exact ⟨by simpa using Nat.succ_lt_succ hlt, by simpa [List.getD_cons_succ] using hlet⟩

/-! ## Helper lemmas about the graph traversals -/

theorem dfsVisit_none {net : List HebrewLetterNode} {fuel : Nat} {start : Char}
    {v : List Char} (hn : getNode net start = none) :
    dfsVisit net (fuel + 1) start v = v := by
  simp [dfsVisit, hn]

theorem dfsVisit_mem {net : List HebrewLetterNode} {fuel : Nat} {start : Char}
    {v : List Char} {node : HebrewLetterNode} (hn : getNode net start = some node)
    (hv : start ∈ v) : dfsVisit net (fuel + 1) start v = v := by
  simp [dfsVisit, hn, hv]

theorem dfsVisit_new {net : List HebrewLetterNode} {fuel : Nat} {start : Char}
    {v : List Char} {node : HebrewLetterNode} (hn : getNode net start = some node)
    (hv : start ∉ v) :
    dfsVisit net (fuel + 1) start v =
      node.spelling.foldl (fun v next => dfsVisit net fuel next v) (v ++ [start]) := by
  simp [dfsVisit, hn, hv]

theorem dfsVisit_extends (net : List HebrewLetterNode) :
    ∀ (fuel : Nat) (start : Char) (v : List Char), v <+: dfsVisit net fuel start v := by
  intro fuel
  induction fuel with
  | zero => intro start v; simp [dfsVisit]
  | succ fuel ih =>
    intro start v
    cases hn : getNode net start with
    | none => rw [dfsVisit_none hn]
    | some node =>
      by_cases hv : start ∈ v
      · rw [dfsVisit_mem hn hv]
      · rw [dfsVisit_new hn hv]
        have haux : ∀ (l : List Char) (w : List Char),
            w <+: l.foldl (fun v next => dfsVisit net fuel next v) w := by
          intro l
          induction l with
          | nil => intro w; simp
          | cons c l ihl =>
            intro w
            simp only [List.foldl_cons]
            exact (ih c w).trans (ihl _)
        exact (List.prefix_append _ _).trans (haux node.spelling (v ++ [start]))

theorem dfsVisit_subset (net : List HebrewLetterNode) (fuel : Nat) (start : Char)
    (v : List Char) : ∀ c ∈ v, c ∈ dfsVisit net fuel start v :=
  fun _ hc => (dfsVisit_extends net fuel start v).subset hc

theorem letter_mem_of_getNode {net : List HebrewLetterNode} {c : Char}
    {node : HebrewLetterNode} (h : getNode net c = some node) : c ∈ netLetters net := by
  have hmem : node ∈ net := List.mem_of_find?_eq_some h
  have hp : node.letter = c := by simpa using List.find?_some h
  exact hp ▸ List.mem_map.mpr ⟨node, hmem, rfl⟩

theorem getNode_isSome_of_mem {net : List HebrewLetterNode} {c : Char}
    (h : c ∈ netLetters net) : (getNode net c).isSome := by
  rcases List.mem_map.mp h with ⟨node, hmem, rfl⟩
  exact List.find?_isSome.mpr ⟨node, hmem, by simp⟩

theorem dfsVisit_mem_letters (net : List HebrewLetterNode) :
    ∀ (fuel : Nat) (start : Char) (v : List Char),
      ∀ c ∈ dfsVisit net fuel start v, c ∈ v ∨ c ∈ netLetters net := by
  intro fuel
  induction fuel with
  | zero => intro start v c hc; exact Or.inl (by simpa [dfsVisit] using hc)
  | succ fuel ih =>
    intro start v c hc
    cases hn : getNode net start with
    | none => rw [dfsVisit_none hn] at hc; exact Or.inl hc
    | some node =>
      by_cases hv : start ∈ v
      · rw [dfsVisit_mem hn hv] at hc; exact Or.inl hc
      · rw [dfsVisit_new hn hv] at hc
        have haux : ∀ (l : List Char) (w : List Char),
            (∀ x ∈ w, x ∈ v ∨ x ∈ netLetters net) →
            ∀ x ∈ l.foldl (fun v next => dfsVisit net fuel next v) w,
              x ∈ v ∨ x ∈ netLetters net := by
          intro l
          induction l with
          | nil => intro w hw x hx; exact hw x hx
          | cons d l ihl =>
            intro w hw x hx
            simp only [List.foldl_cons] at hx
            refine ihl _ ?_ x hx
            intro y hy
            rcases ih d w y hy with hyw | hyl
            · exact hw y hyw
            · exact Or.inr hyl
        refine haux node.spelling (v ++ [start]) ?_ c hc
        intro x hx
        rcases List.mem_append.mp hx with hxv | hxs
        · exact Or.inl hxv
        · rcases List.mem_singleton.mp hxs with rfl
          exact Or.inr (letter_mem_of_getNode hn)

theorem dfsVisit_nodup (net : List HebrewLetterNode) :
    ∀ (fuel : Nat) (start : Char) (v : List Char),
      v.Nodup → (dfsVisit net fuel start v).Nodup := by
  intro fuel
  induction fuel with
  | zero => intro start v hv; simpa [dfsVisit] using hv
  | succ fuel ih =>
    intro start v hv
    cases hn : getNode net start with
    | none => rw [dfsVisit_none hn]; exact hv
    | some node =>
      by_cases hvs : start ∈ v
      · rw [dfsVisit_mem hn hvs]; exact hv
      · rw [dfsVisit_new hn hvs]
        have haux : ∀ (l : List Char) (w : List Char),
            w.Nodup → (l.foldl (fun v next => dfsVisit net fuel next v) w).Nodup := by
          intro l
          induction l with
          | nil => intro w hw; exact hw
          | cons d l ihl =>
            intro w hw
            simp only [List.foldl_cons]
            exact ihl _ (ih d w hw)
        refine haux node.spelling (v ++ [start]) ?_
        simp [List.nodup_append, hv, hvs]

theorem dfsVisit_mem_start (net : List HebrewLetterNode) (fuel : Nat) (start : Char)
    (v : List Char) (h : start ∈ netLetters net) :
    start ∈ dfsVisit net (fuel + 1) start v := by
  cases hn : getNode net start with
  | none =>
    exfalso
    have := getNode_isSome_of_mem h
    rw [hn] at this
    simp at this
  | some node =>
    by_cases hv : start ∈ v
    · rw [dfsVisit_mem hn hv]; exact hv
    · rw [dfsVisit_new hn hv]
      have haux : ∀ (l : List Char) (w : List Char),
          ∀ c ∈ w, c ∈ l.foldl (fun v next => dfsVisit net fuel next v) w := by
        intro l
        induction l with
        | nil => intro w c hc; exact hc
        | cons d l ihl =>
          intro w c hc
          simp only [List.foldl_cons]
          exact ihl _ c (dfsVisit_subset net fuel d w c hc)
      exact haux node.spelling (v ++ [start]) start (by simp)

theorem unvisitedCount_le_of_subset (net : List HebrewLetterNode) {v v' : List Char}
    (h : ∀ c ∈ v, c ∈ v') : unvisitedCount net v' ≤ unvisitedCount net v := by
  unfold unvisitedCount
  refine List.Sublist.length_le (List.monotone_filter_right _ ?_)
  intro a ha
  rw [decide_eq_true_iff] at ha ⊢
  exact fun hav => ha (h a hav)

theorem unvisitedCount_pos (net : List HebrewLetterNode) {start : Char} {v : List Char}
    (hl : start ∈ netLetters net) (hv : start ∉ v) : 0 < unvisitedCount net v := by
  unfold unvisitedCount
  refine List.length_pos.mpr ?_
  intro hnil
  have : start ∈ (netLetters net).filter (fun c => decide (c ∉ v)) :=
    List.mem_filter.mpr ⟨hl, by simpa using hv⟩
  rw [hnil] at this
  exact List.not_mem_nil _ this

theorem unvisitedCount_append_lt (net : List HebrewLetterNode) {start : Char}
    {v : List Char} (hl : start ∈ netLetters net) (hv : start ∉ v) :
    unvisitedCount net (v ++ [start]) < unvisitedCount net v := by
  unfold unvisitedCount
  have hsub : List.Sublist ((netLetters net).filter (fun c => decide (c ∉ v ++ [start])))
      ((netLetters net).filter (fun c => decide (c ∉ v))) := by
    refine List.monotone_filter_right _ ?_
    intro a ha
    rw [decide_eq_true_iff] at ha ⊢
    exact fun hav => ha (List.mem_append.mpr (Or.inl hav))
  refine Nat.lt_of_le_of_ne hsub.length_le ?_
  intro heq
  have hfq : start ∈ (netLetters net).filter (fun c => decide (c ∉ v)) :=
    List.mem_filter.mpr ⟨hl, by simpa using hv⟩
  have hfp : start ∉ (netLetters net).filter (fun c => decide (c ∉ v ++ [start])) := by
    intro hmem
    have := (List.mem_filter.mp hmem).2
    simp at this
  rw [hsub.eq_of_length heq] at hfp
  exact hfp hfq

theorem unvisitedCount_dfs_le (net : List HebrewLetterNode) (fuel : Nat) (start : Char)
    (v : List Char) : unvisitedCount net (dfsVisit net fuel start v) ≤ unvisitedCount net v :=
  unvisitedCount_le_of_subset net (dfsVisit_subset net fuel start v)

theorem dfsVisit_succ_eq (net : List HebrewLetterNode) :
    ∀ (fuel : Nat) (start : Char) (v : List Char),
      unvisitedCount net v ≤ fuel →
      dfsVisit net (fuel + 1) start v = dfsVisit net fuel start v := by
  intro fuel
  induction fuel with
  | zero =>
    intro start v hc
    cases hn : getNode net start with
    | none => rw [dfsVisit_none hn]; simp [dfsVisit]
    | some node =>
      by_cases hv : start ∈ v
      · rw [dfsVisit_mem hn hv]; simp [dfsVisit]
      · exfalso
        have := unvisitedCount_pos net (letter_mem_of_getNode hn) hv
        omega
  | succ fuel ih =>
    intro start v hc
    cases hn : getNode net start with
    | none => rw [dfsVisit_none hn, dfsVisit_none hn]
    | some node =>
      by_cases hv : start ∈ v
      · rw [dfsVisit_mem hn hv, dfsVisit_mem hn hv]
      · rw [dfsVisit_new hn hv, dfsVisit_new hn hv]
        have hlt := unvisitedCount_append_lt net (letter_mem_of_getNode hn) hv
        have haux : ∀ (l : List Char) (w : List Char),
            unvisitedCount net w ≤ fuel →
            l.foldl (fun v next => dfsVisit net (fuel + 1) next v) w =
              l.foldl (fun v next => dfsVisit net fuel next v) w := by
          intro l
          induction l with
          | nil => intro w _; rfl
          | cons d l ihl =>
            intro w hw
            simp only [List.foldl_cons]
            rw [ih d w hw]
            exact ihl _ (le_trans (unvisitedCount_dfs_le net fuel d w) hw)
        exact haux node.spelling (v ++ [start]) (by omega)

theorem dfsVisit_add_eq (net : List HebrewLetterNode) (start : Char) (v : List Char)
    (f : Nat) (hf : unvisitedCount net v ≤ f) :
    ∀ k, dfsVisit net (f + k) start v = dfsVisit net f start v := by
  intro k
  induction k with
  | zero => rfl
  | succ k ihk =>
    have : f + (k + 1) = (f + k) + 1 := rfl
    rw [this, dfsVisit_succ_eq net (f + k) start v (le_trans hf (Nat.le_add_right _ _)), ihk]

theorem dfsVisit_stable (net : List HebrewLetterNode) (start : Char) (v : List Char)
    {f g : Nat} (hf : unvisitedCount net v ≤ f) (hg : unvisitedCount net v ≤ g) :
    dfsVisit net f start v = dfsVisit net g start v := by
  rcases Nat.le_total f g with h | h
  · rcases Nat.le.dest h with ⟨k, rfl⟩
    rw [dfsVisit_add_eq net start v f hf k]
  · rcases Nat.le.dest h with ⟨k, rfl⟩
    rw [dfsVisit_add_eq net start v g hg k]

theorem countP_flatten_eq_one {c : Char} :
    ∀ {L : List (List Char)}, L.flatten.Nodup → c ∈ L.flatten →
      L.countP (fun l => decide (c ∈ l)) = 1 := by
  intro L
  induction L with
  | nil => intro _ hc; simp at hc
  | cons l L ih =>
    intro hnd hc
    rw [List.flatten_cons] at hnd hc
    obtain ⟨hl, hL, hdisj⟩ := List.nodup_append.mp hnd
    rw [List.countP_cons]
    by_cases hcl : c ∈ l
    · have hzero : L.countP (fun l => decide (c ∈ l)) = 0 := by
        rw [List.countP_eq_zero]
        intro l' hl' hcl'
        rw [decide_eq_true_iff] at hcl'
        exact hdisj hcl (List.mem_flatten.mpr ⟨l', hl', hcl'⟩)
      simp [hzero, hcl]
    · have hmem : c ∈ L.flatten := by
        rcases List.mem_append.mp hc with h | h
        · exact absurd h hcl
        · exact h
      simp [ih hL hmem, hcl]

/-- The combined invariant of the islands fold: the visited list is the
concatenation of the islands collected so far, stays duplicate-free and
inside the node letters, grows monotonically, and every processed node's
letter ends up visited. -/
theorem islandsFold_inv (net : List HebrewLetterNode) :
    ∀ (rest : List HebrewLetterNode) (visited : List Char) (islands : List (List Char)),
      visited.Nodup → visited = islands.flatten →
      (∀ c ∈ visited, c ∈ netLetters net) →
      (∀ node ∈ rest, node.letter ∈ netLetters net) →
      (islandsFold net rest (visited, islands)).1.Nodup ∧
      (islandsFold net rest (visited, islands)).1 =
        (islandsFold net rest (visited, islands)).2.flatten ∧
      (∀ c ∈ (islandsFold net rest (visited, islands)).1, c ∈ netLetters net) ∧
      (∀ node ∈ rest, node.letter ∈ (islandsFold net rest (visited, islands)).1) ∧
      visited <+: (islandsFold net rest (visited, islands)).1 := by
  intro rest
  induction rest with
  | nil =>
    intro visited islands hnd hj hsub _
    exact ⟨hnd, hj, hsub, by simp, List.prefix_rfl⟩
  | cons node rest ih =>
    intro visited islands hnd hj hsub hrest
    by_cases hv : node.letter ∈ visited
    · rw [show islandsFold net (node :: rest) (visited, islands) =
          islandsFold net rest (visited, islands) by simp [islandsFold, hv]]
      obtain ⟨h1, h2, h3, h4, h5⟩ :=
        ih visited islands hnd hj hsub (fun n hn => hrest n (List.mem_cons_of_mem _ hn))
      refine ⟨h1, h2, h3, ?_, h5⟩
      intro n hn
      rcases List.mem_cons.mp hn with rfl | hn'
      · exact h5.subset hv
      · exact h4 n hn'
    · have hnet : node.letter ∈ netLetters net := hrest node (List.mem_cons_self _ _)
      have hnetlen : 1 ≤ net.length := by
        rcases List.mem_map.mp hnet with ⟨n, hn, _⟩
        exact List.length_pos.mpr (List.ne_nil_of_mem hn)
      set v' := dfsVisit net net.length node.letter visited with hv'
      obtain ⟨e, he⟩ := dfsVisit_extends net net.length node.letter visited
      rw [← hv'] at he
      have hdrop : v'.drop visited.length = e := by
        rw [← he, List.drop_left]
      have hpre' : visited <+: v' := ⟨e, he⟩
      have hstep : islandsFold net (node :: rest) (visited, islands) =
          islandsFold net rest (v', if e = [] then islands else islands ++ [e]) := by
        simp only [islandsFold]
        rw [if_neg hv, ← hv', hdrop]
      have hnd' : v'.Nodup := dfsVisit_nodup net net.length node.letter visited hnd
      have hj' : v' = (if e = [] then islands else islands ++ [e]).flatten := by
        split
        case isTrue hen => rw [← he, hen, ← hj]; simp
        case isFalse => rw [← he, hj]; simp
      have hsub' : ∀ c ∈ v', c ∈ netLetters net := by
        intro c hc
        rcases dfsVisit_mem_letters net net.length node.letter visited c hc with h | h
        · exact hsub c h
        · exact h
      obtain ⟨h1, h2, h3, h4, h5⟩ := ih v' (if e = [] then islands else islands ++ [e])
        hnd' hj' hsub' (fun n hn => hrest n (List.mem_cons_of_mem _ hn))
      rw [hstep]
      refine ⟨h1, h2, h3, ?_, hpre'.trans h5⟩
      intro n hn
      rcases List.mem_cons.mp hn with heq | hn'
      · rw [heq]
        refine h5.subset ?_
        have hmem1 : node.letter ∈ dfsVisit net (net.length - 1 + 1) node.letter visited :=
          dfsVisit_mem_start net (net.length - 1) node.letter visited hnet
        rw [show net.length - 1 + 1 = net.length by omega] at hmem1
        exact hv' ▸ hmem1
      · exact h4 n hn'

theorem identifyIslandLetterSets_inv (net : List HebrewLetterNode) :
    (∀ c, c ∈ (identifyIslandLetterSets net).flatten ↔ c ∈ netLetters net) ∧
      (identifyIslandLetterSets net).flatten.Nodup := by
  obtain ⟨h1, h2, h3, h4, _⟩ := islandsFold_inv net net [] [] (by simp) (by simp)
    (by simp) (fun node hn => List.mem_map.mpr ⟨node, hn, rfl⟩)
  have hflat : (identifyIslandLetterSets net).flatten = (islandsFold net net ([], [])).1 := by
    unfold identifyIslandLetterSets
    exact h2.symm
  rw [hflat]
  refine ⟨fun c => ⟨fun hc => h3 c hc, fun hc => ?_⟩, h1⟩
  rcases List.mem_map.mp hc with ⟨node, hn, rfl⟩
  exact h4 node hn

/-! ## Helper lemmas about the path-weight computation -/

theorem pathGematriaAux_spec (net : List HebrewLetterNode) :
    ∀ (letters : List Char) (total : Nat),
      pathGematriaAux net letters total =
        if letters.all (fun c => (getNode net c).isSome) then
          total + (letters.filterMap (fun c => (getNode net c).map (fun n => n.gematria))).sum
        else 0 := by
  intro letters
  induction letters with
  | nil => intro total; simp [pathGematriaAux]
  | cons c cs ih =>
    intro total
    cases hn : getNode net c with
    | none => simp [pathGematriaAux, hn]
    | some node =>
      simp only [pathGematriaAux, hn, ih, List.all_cons, List.filterMap_cons]
      by_cases hall : cs.all (fun c => (getNode net c).isSome)
      · simp [hall, hn]
        omega
      · simp [hall, hn]

theorem calculatePathGematria_spec (net : List HebrewLetterNode) (letters : List Char) :
    calculatePathGematria net letters =
      if letters.all (fun c => (getNode net c).isSome) then
        (letters.filterMap (fun c => (getNode net c).map (fun n => n.gematria))).sum
      else 0 := by
  unfold calculatePathGematria
  rw [pathGematriaAux_spec net letters 0]
  split <;> simp

/-! ## Helper lemmas about breadth-first search -/

theorem bfsAux_zero (net : List HebrewLetterNode) (q v y : List Char) :
    bfsAux net 0 q v y = y := rfl

theorem bfsAux_nil (net : List HebrewLetterNode) (fuel : Nat) (v y : List Char) :
    bfsAux net (fuel + 1) [] v y = y := rfl

theorem bfsAux_cons_none {net : List HebrewLetterNode} {cur : Char}
    (fuel : Nat) (rest v y : List Char) (hn : getNode net cur = none) :
    bfsAux net (fuel + 1) (cur :: rest) v y = y := by
  simp [bfsAux, hn]

theorem bfsAux_cons_some {net : List HebrewLetterNode} {cur : Char}
    {node : HebrewLetterNode} (fuel : Nat) (rest v y : List Char)
    (hn : getNode net cur = some node) :
    bfsAux net (fuel + 1) (cur :: rest) v y =
      bfsAux net fuel (node.spelling.foldl bfsEnqueue (rest, v)).1
        (node.spelling.foldl bfsEnqueue (rest, v)).2 (y ++ [cur]) := by
  simp [bfsAux, hn]

theorem bfsEnqueue_foldl_visited_mono :
    ∀ (sp : List Char) (q v : List Char),
      ∀ c ∈ v, c ∈ (sp.foldl bfsEnqueue (q, v)).2 := by
  intro sp
  induction sp with
  | nil => intro q v c hc; exact hc
  | cons d sp ih =>
    intro q v c hc
    simp only [List.foldl_cons]
    unfold bfsEnqueue
    by_cases hd : d ∈ v
    · simpa [hd] using ih q v c hc
    · simpa [hd] using ih (q ++ [d]) (v ++ [d]) c (List.mem_append.mpr (Or.inl hc))

theorem bfsEnqueue_foldl_nodup (y0 : List Char) :
    ∀ (sp : List Char) (q v : List Char),
      (y0 ++ q).Nodup → (∀ c ∈ y0 ++ q, c ∈ v) →
      (y0 ++ (sp.foldl bfsEnqueue (q, v)).1).Nodup ∧
        (∀ c ∈ y0 ++ (sp.foldl bfsEnqueue (q, v)).1, c ∈ (sp.foldl bfsEnqueue (q, v)).2) := by
  intro sp
  induction sp with
  | nil => intro q v hnd hsub; exact ⟨hnd, hsub⟩
  | cons d sp ih =>
    intro q v hnd hsub
    simp only [List.foldl_cons]
    unfold bfsEnqueue
    by_cases hd : d ∈ v
    · simpa [hd] using ih q v hnd hsub
    · simp only [hd, if_false]
      have hdn : d ∉ y0 ++ q := fun hmem => hd (hsub d hmem)
      have hnd' : (y0 ++ (q ++ [d])).Nodup := by
        rw [← List.append_assoc]
        rw [List.nodup_append]
        refine ⟨hnd, List.nodup_singleton d, ?_⟩
        intro a ha hb
        rw [List.mem_singleton] at hb
        exact absurd ((hb ▸ ha) : d ∈ y0 ++ q) hdn
      have hsub' : ∀ c ∈ y0 ++ (q ++ [d]), c ∈ v ++ [d] := by
        intro c hc
        rw [← List.append_assoc] at hc
        rcases List.mem_append.mp hc with hc' | hc'
        · exact List.mem_append.mpr (Or.inl (hsub c hc'))
        · exact List.mem_append.mpr (Or.inr hc')
      simpa [hd] using ih (q ++ [d]) (v ++ [d]) hnd' hsub'

theorem bfsEnqueue_foldl_letters (net : List HebrewLetterNode) :
    ∀ (sp : List Char) (q v : List Char),
      (∀ c ∈ q, c ∈ netLetters net) → (∀ c ∈ sp, c ∈ netLetters net) →
      ∀ c ∈ (sp.foldl bfsEnqueue (q, v)).1, c ∈ netLetters net := by
  intro sp
  induction sp with
  | nil => intro q v hq _ c hc; exact hq c hc
  | cons d sp ih =>
    intro q v hq hsp c hc
    simp only [List.foldl_cons] at hc
    unfold bfsEnqueue at hc
    by_cases hd : d ∈ v
    · simp only [hd, if_true] at hc
      exact ih q v hq (fun x hx => hsp x (List.mem_cons_of_mem _ hx)) c hc
    · simp only [hd, if_false] at hc
      refine ih (q ++ [d]) (v ++ [d]) ?_ (fun x hx => hsp x (List.mem_cons_of_mem _ hx)) c hc
      intro x hx
      rcases List.mem_append.mp hx with hx' | hx'
      · exact hq x hx'
      · rw [List.mem_singleton] at hx'
        exact hx' ▸ hsp d (List.mem_cons_self _ _)

theorem bfsEnqueue_foldl_measure (net : List HebrewLetterNode) :
    ∀ (sp : List Char) (q v : List Char),
      (∀ c ∈ sp, c ∈ netLetters net) →
      (sp.foldl bfsEnqueue (q, v)).1.length +
          unvisitedCount net (sp.foldl bfsEnqueue (q, v)).2 ≤
        q.length + unvisitedCount net v := by
  intro sp
  induction sp with
  | nil => intro q v _; exact le_rfl
  | cons d sp ih =>
    intro q v hsp
    by_cases hd : d ∈ v
    · rw [List.foldl_cons, show bfsEnqueue (q, v) d = (q, v) by simp [bfsEnqueue, hd]]
      exact ih q v (fun x hx => hsp x (List.mem_cons_of_mem _ hx))
    · rw [List.foldl_cons,
        show bfsEnqueue (q, v) d = (q ++ [d], v ++ [d]) by simp [bfsEnqueue, hd]]
      have hlt : unvisitedCount net (v ++ [d]) < unvisitedCount net v :=
        unvisitedCount_append_lt net (hsp d (List.mem_cons_self _ _)) hd
      have := ih (q ++ [d]) (v ++ [d]) (fun x hx => hsp x (List.mem_cons_of_mem _ hx))
      simp only [List.length_append, List.length_singleton] at this
      omega

theorem bfsAux_nodup (net : List HebrewLetterNode) :
    ∀ (fuel : Nat) (q v y : List Char),
      (y ++ q).Nodup → (∀ c ∈ y ++ q, c ∈ v) → (bfsAux net fuel q v y).Nodup := by
  intro fuel
  induction fuel with
  | zero =>
    intro q v y hnd _
    rw [bfsAux_zero]
    exact (List.nodup_append.mp hnd).1
  | succ fuel ih =>
    intro q v y hnd hsub
    cases q with
    | nil =>
      rw [bfsAux_nil]
      exact (List.nodup_append.mp hnd).1
    | cons cur rest =>
      cases hn : getNode net cur with
      | none =>
        rw [bfsAux_cons_none fuel rest v y hn]
        exact (List.nodup_append.mp hnd).1
      | some node =>
        rw [bfsAux_cons_some fuel rest v y hn]
        have hrw : y ++ cur :: rest = (y ++ [cur]) ++ rest := by
          simp
        rw [hrw] at hnd hsub
        obtain ⟨hnd', hsub'⟩ :=
          bfsEnqueue_foldl_nodup (y ++ [cur]) node.spelling rest v hnd hsub
        exact ih _ _ _ hnd' hsub'

theorem bfsAux_succ_eq (net : List HebrewLetterNode)
    (hclosed : ∀ n ∈ net, ∀ c ∈ n.spelling, c ∈ netLetters net) :
    ∀ (fuel : Nat) (q v y : List Char),
      q.length + unvisitedCount net v ≤ fuel → (∀ c ∈ q, c ∈ netLetters net) →
      bfsAux net (fuel + 1) q v y = bfsAux net fuel q v y := by
  intro fuel
  induction fuel with
  | zero =>
    intro q v y hm _
    have hq : q = [] := by
      cases q with
      | nil => rfl
      | cons a l => simp at hm
    subst hq
    rw [bfsAux_nil, bfsAux_zero]
  | succ fuel ih =>
    intro q v y hm hq
    cases q with
    | nil => rw [bfsAux_nil, bfsAux_nil]
    | cons cur rest =>
      cases hn : getNode net cur with
      | none =>
        rw [bfsAux_cons_none (fuel + 1) rest v y hn, bfsAux_cons_none fuel rest v y hn]
      | some node =>
        rw [bfsAux_cons_some (fuel + 1) rest v y hn, bfsAux_cons_some fuel rest v y hn]
        have hspl : ∀ c ∈ node.spelling, c ∈ netLetters net :=
          hclosed node (List.mem_of_find?_eq_some hn)
        have hmeas := bfsEnqueue_foldl_measure net node.spelling rest v hspl
        have hrl : ∀ c ∈ (node.spelling.foldl bfsEnqueue (rest, v)).1, c ∈ netLetters net :=
          bfsEnqueue_foldl_letters net node.spelling rest v
            (fun c hc => hq c (List.mem_cons_of_mem _ hc)) hspl
        refine ih _ _ _ ?_ hrl
        simp only [List.length_cons] at hm
        omega

theorem bfsAux_add_eq (net : List HebrewLetterNode)
    (hclosed : ∀ n ∈ net, ∀ c ∈ n.spelling, c ∈ netLetters net)
    (q v y : List Char) (f : Nat) (hf : q.length + unvisitedCount net v ≤ f)
    (hq : ∀ c ∈ q, c ∈ netLetters net) :
    ∀ k, bfsAux net (f + k) q v y = bfsAux net f q v y := by
  intro k
  induction k with
  | zero => rfl
  | succ k ihk =>
    have heq : f + (k + 1) = (f + k) + 1 := rfl
    rw [heq, bfsAux_succ_eq net hclosed (f + k) q v y
      (le_trans hf (Nat.le_add_right _ _)) hq, ihk]

theorem unvisitedCount_le_length (net : List HebrewLetterNode) (v : List Char) :
    unvisitedCount net v ≤ net.length := by
  unfold unvisitedCount
  calc ((netLetters net).filter (fun c => decide (c ∉ v))).length
      ≤ (netLetters net).length := (List.filter_sublist _).length_le
    _ = net.length := List.length_map _ _

/-! ## Helper lemmas about the scorer's output shape -/

theorem filterMap_enumFrom_sublist {α β γ : Type} (f : Nat × α → Option β)
    (g : α → γ) (proj : β → γ)
    (h : ∀ (i : Nat) (a : α) (b : β), f (i, a) = some b → proj b = g a) :
    ∀ (n : Nat) (l : List α),
      List.Sublist (((List.enumFrom n l).filterMap f).map proj) (l.map g) := by
  intro n l
  induction l generalizing n with
  | nil => simp
  | cons a l ih =>
    rw [List.enumFrom_cons, List.filterMap_cons, List.map_cons]
    cases hf : f (n, a) with
    | none => exact (ih (n + 1)).cons (g a)
    | some b =>
      rw [List.map_cons, h n a b hf]
      exact (ih (n + 1)).cons₂ (g a)

theorem flatMap_sublist_of_parts {α β : Type} (F G : α → List β)
    (h : ∀ a, List.Sublist (F a) (G a)) :
    ∀ l : List α, List.Sublist (l.flatMap F) (l.flatMap G) := by
  intro l
  induction l with
  | nil => simp
  | cons a l ih =>
    rw [List.flatMap_cons, List.flatMap_cons]
    exact (h a).append ih

/-! ## Helper lemmas about the standard gematria fold -/

theorem calculateStandardGematria_shift (resolve : Char → Option Nat) :
    ∀ (s : List Char) (a : Nat),
      s.foldl (fun total c =>
        match resolve c with
        | some v => total + v
        | none => total) a =
      a + s.foldl (fun total c =>
        match resolve c with
        | some v => total + v
        | none => total) 0 := by
  intro s
  induction s with
  | nil => intro a; simp
  | cons c s ih =>
    intro a
    cases hrc : resolve c with
    | none =>
      simp only [List.foldl_cons, hrc]
      exact ih a
    | some v =>
      simp only [List.foldl_cons, hrc]
      rw [ih (a + v), ih (0 + v)]
      omega

theorem calculateStandardGematria_cons (resolve : Char → Option Nat) (c : Char)
    (s : List Char) :
    calculateStandardGematria resolve (c :: s) =
      (match resolve c with
        | some v => v
        | none => 0) + calculateStandardGematria resolve s := by
  unfold calculateStandardGematria
  rw [List.foldl_cons, calculateStandardGematria_shift]
  cases hrc : resolve c <;> simp [hrc]

theorem calculateStandardGematria_append (resolve : Char → Option Nat)
    (s t : List Char) :
    calculateStandardGematria resolve (s ++ t) =
      calculateStandardGematria resolve s + calculateStandardGematria resolve t := by
  induction s with
  | nil => simp [calculateStandardGematria]
  | cons c s ih =>
    rw [List.cons_append, calculateStandardGematria_cons,
      calculateStandardGematria_cons, ih]
    omega

theorem calculateStandardGematria_filter (resolve : Char → Option Nat) (s : List Char) :
    calculateStandardGematria resolve s =
      calculateStandardGematria resolve (s.filter (fun x => (resolve x).isSome)) := by
  induction s with
  | nil => rfl
  | cons c s ih =>
    rw [List.filter_cons, calculateStandardGematria_cons]
    cases hrc : resolve c with
    | none => simpa [hrc] using ih
    | some v => simp [hrc, calculateStandardGematria_cons, ih]

theorem calculateStandardGematria_none_zero (resolve : Char → Option Nat) :
    ∀ (s : List Char), (∀ x ∈ s, resolve x = none) →
      calculateStandardGematria resolve s = 0 := by
  intro s
  induction s with
  | nil => intro _; rfl
  | cons c s ih =>
    intro h
    rw [calculateStandardGematria_cons, h c (List.mem_cons_self _ _),
      ih (fun x hx => h x (List.mem_cons_of_mem _ hx))]

theorem bfsAux_stable (net : List HebrewLetterNode)
    (hclosed : ∀ n ∈ net, ∀ c ∈ n.spelling, c ∈ netLetters net)
    (q v y : List Char) {f g : Nat} (hf : q.length + unvisitedCount net v ≤ f)
    (hg : q.length + unvisitedCount net v ≤ g)
    (hq : ∀ c ∈ q, c ∈ netLetters net) :
    bfsAux net f q v y = bfsAux net g q v y := by
  rcases Nat.le_total f g with h | h
  · rcases Nat.le.dest h with ⟨k, rfl⟩
    rw [bfsAux_add_eq net hclosed q v y f hf hq k]
  · rcases Nat.le.dest h with ⟨k, rfl⟩
    rw [bfsAux_add_eq net hclosed q v y g hg hq k]

theorem elsSearchNormalized_length {text kw : List Char} {skip : Int} {fwd : Bool}
    {m : List Nat} (h : m ∈ elsSearchNormalized text kw skip fwd) :
    m.length = (cleanText kw).length := by
  obtain ⟨i, hi⟩ := elsSearchNormalized_mem h
  exact elsTryStart_length hi

/-! ## The claims -/

/-- C1, counterexample: the claim says the inner extension step is always
`+skip` along increasing normalized index, for every direction, so every
accepted index sequence increases by `skip`.  The backward search on text
`"אב"` for keyword `"בא"` with skip 1 accepts the normalized sequence
`[1, 0]`, which decreases. -/
theorem els_inner_step_claim_counterexample :
    elsSearchNormalized "אב".data "בא".data 1 false = [[1, 0]] ∧
      ¬ List.Chain' (fun a b : Nat => (b : Int) = (a : Int) + 1) [1, 0] := by
  constructor
  · decide
  · intro hch
    have h01 := (List.chain'_cons'.mp hch).1 0 (by rfl)
    norm_num at h01

/-- C1, amended: the forward/backward distinction changes both the outer
scan order and the sign of the inner step — the source sets
`step = skip` for forward and `step = -skip` for backward — so forward
matches advance by `+skip` and backward matches advance by `-skip` along
normalized index. -/
theorem els_inner_step_by_direction (text kw : List Char) (skip : Int) (m : List Nat) :
    (m ∈ elsSearchNormalized text kw skip true →
      List.Chain' (fun a b : Nat => (b : Int) = (a : Int) + skip) m) ∧
    (m ∈ elsSearchNormalized text kw skip false →
      List.Chain' (fun a b : Nat => (b : Int) = (a : Int) - skip) m) := by
  constructor
  · intro h
    obtain ⟨i, hi⟩ := elsSearchNormalized_mem h
    have hi' : elsTryStart (cleanText text) (cleanText kw) skip i = some m := by
      simpa using hi
    exact elsTryStart_chain hi'
  · intro h
    obtain ⟨i, hi⟩ := elsSearchNormalized_mem h
    have hi' : elsTryStart (cleanText text) (cleanText kw) (-skip) i = some m := by
      simpa using hi
    refine (elsTryStart_chain hi').imp ?_
    intro a b hab
    omega

theorem els_inner_step_by_direction_witness :
    ([0, 1] ∈ elsSearchNormalized "אב".data "אב".data 1 true) ∧
      List.Chain' (fun a b : Nat => (b : Int) = (a : Int) + 1) [0, 1] :=
  ⟨by decide, (els_inner_step_by_direction "אב".data "אב".data 1 [0, 1]).1 (by decide)⟩

/-- C2, counterexample: the claim says two nodes linked by a decomposition
edge in either direction always land in the same island.  In the network
the code builds, ב's decomposition (spelling) contains ת, yet no computed
island contains both ב and ת — the shared-visited DFS follows the
spelling edges directedly, and ת was already claimed by א's island before
ב's traversal ran. -/
theorem islands_undirected_claim_counterexample :
    ((getNode hebrewNetwork 'ב').map (fun n => n.spelling) = some ['ב', 'י', 'ת']) ∧
      ('ב' ∈ (identifyIslandLetterSets hebrewNetwork).flatten) ∧
      ('ת' ∈ (identifyIslandLetterSets hebrewNetwork).flatten) ∧
      (∀ isl ∈ identifyIslandLetterSets hebrewNetwork, ¬ ('ב' ∈ isl ∧ 'ת' ∈ isl)) := by
  refine ⟨by decide, by decide, by decide, by decide⟩

/-- C2, amended: the islands computation is a true partition of the node
set — every graph node appears in exactly one island and the union of the
island letter sets is the node set — but the islands are the components
of the *directed* spelling reachability in map order, so two nodes joined
by a decomposition edge need not share an island. -/
theorem islands_partition_of_nodes (net : List HebrewLetterNode) :
    (∀ c, c ∈ (identifyIslandLetterSets net).flatten ↔ c ∈ netLetters net) ∧
      (∀ c ∈ netLetters net,
        (identifyIslandLetterSets net).countP (fun isl => decide (c ∈ isl)) = 1) := by
  obtain ⟨hiff, hnd⟩ := identifyIslandLetterSets_inv net
  refine ⟨hiff, ?_⟩
  intro c hc
  exact countP_flatten_eq_one hnd ((hiff c).mpr hc)

theorem islands_partition_of_nodes_witness :
    ('ב' ∈ netLetters hebrewNetwork) ∧
      (identifyIslandLetterSets hebrewNetwork).countP
        (fun isl => decide ('ב' ∈ isl)) = 1 :=
  ⟨by decide, (islands_partition_of_nodes hebrewNetwork).2 'ב' (by decide)⟩

/-- C3, counterexample: the claim says a character absent from the graph
makes the path-weight computation fail with a typed `UnknownSymbol` error
propagated to the caller, never a silent numeric total.  The code returns
the plain number 0 for `['ב', 'a']` — indistinguishable from a genuine
zero total — where the spec-modelled contract returns
`UnknownSymbol('a')`. -/
theorem pathWeight_unknown_symbol_counterexample :
    calculatePathGematria hebrewNetwork ['ב', 'a'] = 0 ∧
      pathWeightSpec hebrewNetwork ['ב', 'a'] = .error 'a' ∧
      calculatePathGematria hebrewNetwork [] = 0 := by
  refine ⟨rfl, rfl, rfl⟩

/-- C3, amended: when every character of the sequence has a node the
computation returns the ordered sum of their weights; when any character
is absent it returns 0 (after a console warning) — no typed error ever
reaches the caller. -/
theorem pathWeight_total_characterization (net : List HebrewLetterNode)
    (letters : List Char) :
    calculatePathGematria net letters =
      if letters.all (fun c => (getNode net c).isSome) then
        (letters.filterMap (fun c => (getNode net c).map (fun n => n.gematria))).sum
      else 0 :=
  calculatePathGematria_spec net letters

/-- C4, counterexample: the claim says the path weight is additive over
concatenation for all character sequences.  With `a = ['א']` and
`b = ['a']` the left side collapses to the unknown-symbol fallback 0
while the right side is 1 + 0. -/
theorem pathWeight_additivity_counterexample :
    calculatePathGematria hebrewNetwork (['א'] ++ ['a']) ≠
      calculatePathGematria hebrewNetwork ['א'] +
        calculatePathGematria hebrewNetwork ['a'] := by
  decide

/-- C4, amended: the path weight is additive over concatenation whenever
every character of both sequences is present in the graph; a single
absent character voids the whole total to 0 and breaks additivity. -/
theorem pathWeight_additive_on_known_letters (net : List HebrewLetterNode)
    (a b : List Char)
    (h : (a ++ b).all (fun c => (getNode net c).isSome) = true) :
    calculatePathGematria net (a ++ b) =
      calculatePathGematria net a + calculatePathGematria net b := by
  rw [List.all_append] at h
  obtain ⟨ha, hb⟩ := Bool.and_eq_true_iff.mp h
  rw [calculatePathGematria_spec net (a ++ b), calculatePathGematria_spec net a,
    calculatePathGematria_spec net b, List.all_append, ha, hb]
  simp [List.filterMap_append, ha, hb]

theorem pathWeight_additive_on_known_letters_witness :
    ((['ב'] ++ ['י', 'ת']).all (fun c => (getNode hebrewNetwork c).isSome) = true) ∧
      calculatePathGematria hebrewNetwork (['ב'] ++ ['י', 'ת']) =
        calculatePathGematria hebrewNetwork ['ב'] +
          calculatePathGematria hebrewNetwork ['י', 'ת'] :=
  ⟨by decide, pathWeight_additive_on_known_letters hebrewNetwork ['ב'] ['י', 'ת'] (by decide)⟩

/-- C5, confirmed: the normalized-to-original index map has the length of
the normalized text, is strictly increasing, every mapped original
position holds an alphabet letter, and empty input yields an empty
normalized text and an empty map. -/
theorem normalize_index_map_invariants (text : List Char) :
    (cleanedToOriginalMap text).length = (cleanText text).length ∧
      (cleanedToOriginalMap text).Pairwise (· < ·) ∧
      (∀ p ∈ cleanedToOriginalMap text,
        p < text.length ∧ isHebrewLetter (text.getD p ' ') = true) ∧
      (text = [] → cleanText text = [] ∧ cleanedToOriginalMap text = []) := by
  refine ⟨cleanedToOriginalMap_length text, cleanedToOriginalMap_pairwise text,
    cleanedToOriginalMap_mem text, ?_⟩
  rintro rfl
  exact ⟨rfl, rfl⟩

theorem normalize_index_map_invariants_witness :
    (1 ∈ cleanedToOriginalMap "xא".data) ∧
      (1 < ("xא".data).length ∧ isHebrewLetter (("xא".data).getD 1 ' ') = true) :=
  ⟨by decide, (normalize_index_map_invariants "xא".data).2.2.1 1 (by decide)⟩

/-- C6, confirmed: a zero skip is rejected by the guard at the head of the
search — before any cleaning or scanning — and produces zero matches for
every text, keyword and direction (the source logs a console error and
warning at that guard; no match is ever computed). -/
theorem els_zero_skip_rejected (text kw : List Char) (fwd : Bool) :
    performElsSearchWithSkipAndDirection text kw 0 fwd = [] ∧
      elsSearchNormalized text kw 0 fwd = [] := by
  have hz : elsSearchNormalized text kw 0 fwd = [] := by
    unfold elsSearchNormalized
    simp
  exact ⟨by unfold performElsSearchWithSkipAndDirection; rw [hz]; rfl, hz⟩

/-- C7, confirmed: with the visited set shared through the recursion, both
traversals terminate on every graph — including the present one with its
א↔ף 2-cycle and the מ and ו self-loops — in the sense that the recursion
stabilises once the fuel covers the unvisited nodes (the source's own
termination bound), and no node is ever yielded to the callback twice:
the DFS visit list and the BFS yield list are duplicate-free. -/
theorem traversal_terminates_and_yields_once (net : List HebrewLetterNode)
    (start : Char) (v : List Char) (f g : Nat) (hv : v.Nodup)
    (hf : unvisitedCount net v ≤ f) (hg : unvisitedCount net v ≤ g)
    (hclosed : ∀ n ∈ net, ∀ c ∈ n.spelling, c ∈ netLetters net) :
    ((dfsVisit net f start v).Nodup ∧ dfsVisit net f start v = dfsVisit net g start v) ∧
      ((breadthFirstSearch net start).Nodup ∧
        ∀ f' g', net.length + 1 ≤ f' → net.length + 1 ≤ g' →
          bfsAux net f' [start] [start] [] = bfsAux net g' [start] [start] []) := by
  refine ⟨⟨dfsVisit_nodup net f start v hv, dfsVisit_stable net start v hf hg⟩, ?_, ?_⟩
  · unfold breadthFirstSearch
    cases hn : getNode net start with
    | none => exact List.nodup_nil
    | some node =>
      refine bfsAux_nodup net (net.length + 1) [start] [start] [] (by simp) (by simp)
  · intro f' g' hf' hg'
    cases hn : getNode net start with
    | none =>
      have hone : ∀ h : Nat, 1 ≤ h → bfsAux net h [start] [start] [] = [] := by
        intro h hh
        obtain ⟨k, rfl⟩ : ∃ k, h = k + 1 := ⟨h - 1, by omega⟩
        exact bfsAux_cons_none k [] [start] [] hn
      rw [hone f' (by omega), hone g' (by omega)]
    | some node =>
      have hcount := unvisitedCount_le_length net [start]
      refine bfsAux_stable net hclosed [start] [start] []
        (by simp only [List.length_singleton]; omega)
        (by simp only [List.length_singleton]; omega) ?_
      intro c hc
      rw [List.mem_singleton] at hc
      exact hc ▸ letter_mem_of_getNode hn

theorem traversal_terminates_and_yields_once_witness :
    (([] : List Char).Nodup ∧ unvisitedCount hebrewNetwork [] ≤ 27 ∧
        unvisitedCount hebrewNetwork [] ≤ 28 ∧
        (∀ n ∈ hebrewNetwork, ∀ c ∈ n.spelling, c ∈ netLetters hebrewNetwork)) ∧
      (((dfsVisit hebrewNetwork 27 'א' []).Nodup ∧
          dfsVisit hebrewNetwork 27 'א' [] = dfsVisit hebrewNetwork 28 'א' []) ∧
        ((breadthFirstSearch hebrewNetwork 'א').Nodup ∧
          ∀ f' g', hebrewNetwork.length + 1 ≤ f' → hebrewNetwork.length + 1 ≤ g' →
            bfsAux hebrewNetwork f' ['א'] ['א'] [] = bfsAux hebrewNetwork g' ['א'] ['א'] [])) :=
  ⟨⟨by decide, by decide, by decide, by decide⟩,
    traversal_terminates_and_yields_once hebrewNetwork 'א' [] 27 28
      (by decide) (by decide) (by decide) (by decide)⟩

/-- C8, counterexample: the claim says the scorer's report list is ordered
by descending score.  On an aggregated input whose first sequence earns
one tag and whose later sequences earn two, the output keeps the input
order `[1, 2, 2]` — the head is not maximal, so the list is not sorted by
descending score (the function never sorts). -/
theorem scorer_descending_order_counterexample :
    (identifySignificantElsFindings hebrewNetwork [⟨5, [[0]]⟩, ⟨7, [[1], [2]]⟩]
        "ב".data "טרר".data).map (fun fd => fd.significance.length) = [1, 2, 2] ∧
      ¬ List.Chain' (fun a b : Nat => b ≤ a)
        ((identifySignificantElsFindings hebrewNetwork [⟨5, [[0]]⟩, ⟨7, [[1], [2]]⟩]
          "ב".data "טרר".data).map (fun fd => fd.significance.length)) := by
  have hmap : (identifySignificantElsFindings hebrewNetwork [⟨5, [[0]]⟩, ⟨7, [[1], [2]]⟩]
      "ב".data "טרר".data).map (fun fd => fd.significance.length) = [1, 2, 2] := by
    decide
  refine ⟨hmap, ?_⟩
  rw [hmap]
  intro hch
  have h12 := (List.chain'_cons'.mp hch).1 2 (by rfl)
  omega

/-- C8, amended: the scorer returns its reports in input iteration order
(by result, then by sequence within a result) — it performs no sorting —
and every match whose tag list is empty is absent from the output; every
returned report carries at least one tag. -/
theorem scorer_keeps_input_order_and_drops_zero_tag (net : List HebrewLetterNode)
    (results : List ElsSkipResult) (keyword text : List Char) :
    (∀ fd ∈ identifySignificantElsFindings net results keyword text,
        fd.significance ≠ []) ∧
      List.Sublist
        ((identifySignificantElsFindings net results keyword text).map
          (fun fd => (fd.skip, fd.indices)))
        (results.flatMap (fun r => r.indices.map (fun seq => (r.skip, [seq])))) := by
  constructor
  · intro fd hfd
    unfold identifySignificantElsFindings at hfd
    rcases List.mem_flatMap.mp hfd with ⟨r, hr, hmem⟩
    rcases List.mem_filterMap.mp hmem with ⟨p, hp, hsome⟩
    split at hsome
    · exact absurd hsome (by simp)
    case isFalse hcond =>
      rw [Option.some.injEq] at hsome
      rw [← hsome]
      simpa using hcond
  · unfold identifySignificantElsFindings
    rw [List.map_flatMap]
    refine flatMap_sublist_of_parts _ _ ?_ results
    intro r
    have henum : r.indices.enum = List.enumFrom 0 r.indices := rfl
    rw [henum]
    refine filterMap_enumFrom_sublist _ _ _ ?_ 0 r.indices
    intro i a b hb
    split at hb
    · exact absurd hb (by simp)
    · rw [Option.some.injEq] at hb
      rw [← hb]

theorem scorer_keeps_input_order_and_drops_zero_tag_witness :
    ((⟨5, [[0]], ["Letters primarily from Isolated Letters island"]⟩ : SignificantFinding) ∈
        identifySignificantElsFindings hebrewNetwork [⟨5, [[0]]⟩, ⟨7, [[1], [2]]⟩]
          "ב".data "טרר".data) ∧
      (⟨5, [[0]], ["Letters primarily from Isolated Letters island"]⟩ :
          SignificantFinding).significance ≠ [] :=
  ⟨by decide, (scorer_keeps_input_order_and_drops_zero_tag hebrewNetwork
    [⟨5, [[0]]⟩, ⟨7, [[1], [2]]⟩] "ב".data "טרר".data).1 _ (by decide)⟩

/-- C9, counterexample: the claim says every accepted match's original
position sequence has the length of the keyword.  The keyword `"א "`
(aleph and a space, non-empty) normalizes to one letter; on the text
`"א"` with skip 1 the search accepts the match `[0]` of length 1, not
the keyword's length 2. -/
theorem match_length_keyword_counterexample :
    performElsSearchWithSkipAndDirection "א".data "א ".data 1 true = [[0]] ∧
      ¬ (([0] : List Nat).length = ("א ".data).length) := by
  exact ⟨by decide, by decide⟩

/-- C9, amended: every accepted match's original position sequence has the
length of the *normalized* (cleaned) keyword — equal to the raw keyword's
length only when the keyword is entirely alphabet letters. -/
theorem match_length_equals_cleaned_keyword (text kw : List Char) (skip : Int)
    (fwd : Bool) :
    ∀ m ∈ performElsSearchWithSkipAndDirection text kw skip fwd,
      m.length = (cleanText kw).length := by
  intro m hm
  unfold performElsSearchWithSkipAndDirection at hm
  rcases List.mem_filterMap.mp hm with ⟨seq, hseq, hsome⟩
  rw [mapSeqToOriginal_length hsome]
  exact elsSearchNormalized_length hseq

theorem match_length_equals_cleaned_keyword_witness :
    ([0] ∈ performElsSearchWithSkipAndDirection "א".data "א ".data 1 true) ∧
      ([0] : List Nat).length = (cleanText "א ".data).length :=
  ⟨by decide, match_length_equals_cleaned_keyword "א".data "א ".data 1 true [0] (by decide)⟩

/-- C10, confirmed: the standard-gematria computation silently skips every
character its data table does not recognize: the result equals the result
on the recognized subsequence, inserting an unrecognized character
anywhere never changes the result, and a string of only unrecognized
characters yields 0.  Stated for every resolution table, hence for the
one shipped in `hebrewAlphabetData.json`. -/
theorem standardGematria_ignores_unrecognized (resolve : Char → Option Nat)
    (s t : List Char) (c : Char) (h : resolve c = none) :
    calculateStandardGematria resolve s =
        calculateStandardGematria resolve (s.filter (fun x => (resolve x).isSome)) ∧
      calculateStandardGematria resolve (s ++ c :: t) =
        calculateStandardGematria resolve (s ++ t) ∧
      calculateStandardGematria resolve (s.filter (fun x => (resolve x).isNone)) = 0 := by
  refine ⟨calculateStandardGematria_filter resolve s, ?_, ?_⟩
  · rw [calculateStandardGematria_append, calculateStandardGematria_append,
      calculateStandardGematria_cons, h]
    simp
  · refine calculateStandardGematria_none_zero resolve _ ?_
    intro x hx
    have hmem := (List.mem_filter.mp hx).2
    simpa [Option.isNone_iff_eq_none] using hmem

theorem standardGematria_ignores_unrecognized_witness :
    ((if ('b' : Char) = 'א' then some (1 : Nat) else none) = none) ∧
      (calculateStandardGematria (fun c => if c = 'א' then some 1 else none) "bא".data =
          calculateStandardGematria (fun c => if c = 'א' then some 1 else none)
            (("bא".data).filter (fun x => (if x = 'א' then some (1 : Nat) else none).isSome)) ∧
        calculateStandardGematria (fun c => if c = 'א' then some 1 else none)
            ("bא".data ++ 'b' :: []) =
          calculateStandardGematria (fun c => if c = 'א' then some 1 else none)
            ("bא".data ++ []) ∧
        calculateStandardGematria (fun c => if c = 'א' then some 1 else none)
            (("bא".data).filter (fun x => (if x = 'א' then some (1 : Nat) else none).isNone)) = 0) :=
  ⟨by decide, standardGematria_ignores_unrecognized
    (fun c => if c = 'א' then some 1 else none) "bא".data [] 'b' (by decide)⟩
